import Mathlib

/-!
# Verification of the asset-scaler string-resource merge core

Shallow embedding of the XML merge engine of the asset-scaler repository
(`xmlUtils` : `parseStringsXml`, `generateMergePreviewWithDetails`,
`mergeIntoExistingXml`, `generateStringsXmlContent`, `executeMerge`),
the locale resolver (`guessLocaleFromFileName`) and the mapping
reconciliation performed in `selectSourceDir`.

Text is modelled as `List Char` (JavaScript strings), files as the list of
their `'\n'`-separated lines, and JavaScript `Map`s as insertion-ordered
association lists (`set` updates in place, later `set` wins on lookup).
-/

namespace AssetScaler

abbrev Str := List Char
abbrev Line := List Char

/-- JavaScript whitespace class `\s` restricted to the ASCII range
(space, tab, LF, VT, FF, CR); the repository's inputs contain no exotic
Unicode spaces. -/
def isJsWs (c : Char) : Bool :=
  c = ' ' || c = '\t' || c = '\n' || c = Char.ofNat 11 || c = Char.ofNat 12 || c = '\r'

/-- JavaScript `line.includes(sub)` : substring containment. -/
def includes (l sub : List Char) : Bool :=
  decide (sub <:+: l)

/-- JavaScript `content.split('\n')` : always at least one piece, one more
piece per `'\n'`. -/
def splitLines : Str → List Line
  | [] => [[]]
  | c :: cs =>
    if c = '\n' then [] :: splitLines cs
    else
      match splitLines cs with
      | l :: ls => (c :: l) :: ls
      | [] => [[c]]

/-- JavaScript `lines.join('\n')`. -/
def joinLines (ls : List Line) : Str :=
  match ls with
  | [] => []
  | [l] => l
  | l :: ls => l ++ '\n' :: joinLines ls

/-- Splitting never returns an empty list of lines. -/
theorem splitLines_ne_nil (s : Str) : splitLines s ≠ [] := by
  cases s with
  | nil => simp [splitLines]
  | cons c cs =>
    simp only [splitLines]
    by_cases h : c = '\n'
    · simp [h]
    · simp only [if_neg h]
      cases hs : splitLines cs with
      | nil => simp
      | cons l ls => simp

theorem joinLines_splitLines (s : Str) : joinLines (splitLines s) = s := by
  induction s with
  | nil => rfl
  | cons c cs ih =>
    by_cases h : c = '\n'
    · subst h
      simp only [splitLines, if_pos rfl]
      cases hs : splitLines cs with
      | nil => exact absurd hs (splitLines_ne_nil cs)
      | cons l ls =>
        simp only [joinLines]
        rw [hs] at ih
        simpa [joinLines] using ih
    · simp only [splitLines, if_neg h]
      cases hs : splitLines cs with
      | nil => exact absurd hs (splitLines_ne_nil cs)
      | cons l ls =>
        rw [hs] at ih
        cases ls with
        | nil => simpa [joinLines] using ih
        | cons l' ls' => simpa [joinLines] using ih

/-- JavaScript `s.replace(/c/g, rep)` for a single-character pattern. -/
def replaceAllChar (c : Char) (rep : Str) (s : Str) : Str :=
  s.flatMap fun x => if x = c then rep else [x]

/-- Line-ending normalization performed before writing
(`content.replace(/\r\n/g, '\n').replace(/\r/g, '\n')`): first pass
rewrites CRLF pairs, second pass rewrites remaining lone CR. -/
def normalizeCrlf : Str → Str
  | [] => []
  | '\r' :: '\n' :: rest => '\n' :: normalizeCrlf rest
  | c :: rest => c :: normalizeCrlf rest

def normalizeLineEndings (s : Str) : Str :=
  replaceAllChar '\r' ['\n'] (normalizeCrlf s)

/-- JavaScript truthiness of an optional string (`undefined` and `""` are
falsy). -/
def jsTruthy (o : Option Str) : Bool :=
  match o with
  | none => false
  | some s => !s.isEmpty

/-! ## JavaScript `Map` as an insertion-ordered association list -/

abbrev JsMap (V : Type) := List (Str × V)

/-- `map.get(k)` (with `undefined` as `none`). With the `Map` invariant
(keys distinct) the first binding is the only one. -/
def jsGet {V : Type} (m : JsMap V) (k : Str) : Option V :=
  match m with
  | [] => none
  | (k', v) :: rest => if k' = k then some v else jsGet rest k

/-- `map.has(k)`. -/
def jsHas {V : Type} (m : JsMap V) (k : Str) : Bool :=
  (jsGet m k).isSome

/-- `map.set(k, v)` : updates the existing binding in place, else appends. -/
def jsSet {V : Type} (m : JsMap V) (k : Str) (v : V) : JsMap V :=
  match m with
  | [] => [(k, v)]
  | (k', v') :: rest => if k' = k then (k, v) :: rest else (k', v') :: jsSet rest k v

/-- `new Map(pairs)` : iterate `set` over the pairs (later pairs win). -/
def jsMapOfPairs {V : Type} (pairs : List (Str × V)) : JsMap V :=
  pairs.foldl (fun m p => jsSet m p.1 p.2) []

theorem jsGet_set_self {V : Type} (m : JsMap V) (k : Str) (v : V) :
    jsGet (jsSet m k v) k = some v := by
  induction m with
  | nil => simp [jsSet, jsGet]
  | cons p rest ih =>
    obtain ⟨k', v'⟩ := p
    by_cases h : k' = k
    · simp [jsSet, h, jsGet]
    · simp [jsSet, h, jsGet, ih]

theorem jsGet_set_other {V : Type} (m : JsMap V) (k k' : Str) (v : V) (h : k ≠ k') :
    jsGet (jsSet m k v) k' = jsGet m k' := by
  induction m with
  | nil => simp [jsSet, jsGet, h]
  | cons p rest ih =>
    obtain ⟨k₀, v₀⟩ := p
    by_cases h0 : k₀ = k
    · subst h0
      simp [jsSet, jsGet, h]
    · simp only [jsSet, if_neg h0, jsGet]
      by_cases h1 : k₀ = k'
      · simp [h1]
      · simp [h1, ih]

/-! ## The string-element patterns

`mergeIntoExistingXml` tests `/<string\s+name="([^"]+)"/` and
`generateMergePreviewWithDetails` tests `/<string\s+name="([^"]+)"[^>]*>/`.
Both are deterministic despite regex backtracking: `\s+` must end exactly
where the non-whitespace literal `name=` starts, and `[^"]+` must end
exactly at the next `"`, so the leftmost match is computed by maximal-run
scanning. -/

def openStringTok : Str := "<string".toList
def nameAttrTok : Str := "name=\"".toList
def closeStringTok : Str := "</string>".toList
def closeResourcesTok : Str := "</resources>".toList

/-- Drop an expected literal prefix, or fail. -/
def stripTok : Str → Str → Option Str
  | [], rest => some rest
  | _, [] => none
  | t :: ts, c :: cs => if c = t then stripTok ts cs else none

/-- Try `/<string\s+name="([^"]+)"/` anchored at the start of `l`; returns
the captured key. -/
def tryStringNameAt (l : Line) : Option Str := do
  let r1 ← stripTok openStringTok l
  let ws := r1.takeWhile isJsWs
  if ws.isEmpty then none else
  let r2 ← stripTok nameAttrTok (r1.dropWhile isJsWs)
  let key := r2.takeWhile (fun c => c ≠ '"')
  if key.isEmpty then none else
  match r2.drop key.length with
  | '"' :: _ => some key
  | _ => none

/-- Leftmost match of `/<string\s+name="([^"]+)"/` on a line
(the Reconstructor's pattern). -/
def mergeStringMatch : Line → Option Str
  | [] => none
  | c :: cs =>
    match tryStringNameAt (c :: cs) with
    | some key => some key
    | none => mergeStringMatch cs

/-- Try `/<string\s+name="([^"]+)"[^>]*>/` anchored at the start of `l`. -/
def tryStringNameTagAt (l : Line) : Option Str := do
  let r1 ← stripTok openStringTok l
  let ws := r1.takeWhile isJsWs
  if ws.isEmpty then none else
  let r2 ← stripTok nameAttrTok (r1.dropWhile isJsWs)
  let key := r2.takeWhile (fun c => c ≠ '"')
  if key.isEmpty then none else
  match r2.drop key.length with
  | '"' :: r3 =>
    match r3.drop ((r3.takeWhile (fun c => c ≠ '>')).length) with
    | '>' :: _ => some key
    | _ => none
  | _ => none

/-- Leftmost match of `/<string\s+name="([^"]+)"[^>]*>/` on a line
(the Diff Engine's pattern). -/
def previewStringMatch : Line → Option Str
  | [] => none
  | c :: cs =>
    match tryStringNameTagAt (c :: cs) with
    | some key => some key
    | none => previewStringMatch cs

/-- Try `/name=["']([^"']+)["']/` anchored at the start of `l`
(the raw-line scan of `parseStringsXml`; opening and closing quote need
not agree). -/
def tryNameAttrAt (l : Line) : Option Str := do
  let r1 ← stripTok ("name=".toList) l
  match r1 with
  | q :: r2 =>
    if q = '"' ∨ q = '\'' then
      let key := r2.takeWhile (fun c => c ≠ '"' ∧ c ≠ '\'')
      if key.isEmpty then none else
      match r2.drop key.length with
      | q' :: _ => if q' = '"' ∨ q' = '\'' then some key else none
      | _ => none
    else none
  | _ => none

/-- Leftmost match of `/name=["']([^"']+)["']/`. -/
def nameAttrMatch : Line → Option Str
  | [] => none
  | c :: cs =>
    match tryNameAttrAt (c :: cs) with
    | some key => some key
    | none => nameAttrMatch cs

/-- `/^(\s+)</` : a non-empty leading whitespace run followed by `<`. -/
def leadingIndentOf (l : Line) : Option Str :=
  let ws := l.takeWhile isJsWs
  if ws.isEmpty then none
  else
    match l.drop ws.length with
    | '<' :: _ => some ws
    | _ => none

/-- Index of the last element satisfying `p` (the Reconstructor records the
closing-tag index each time it pushes a matching line, so the last one
wins). -/
def lastIdxOf? {α : Type} (p : α → Bool) : List α → Option Nat
  | [] => none
  | a :: as =>
    match lastIdxOf? p as with
    | some i => some (i + 1)
    | none => if p a then some 0 else none

/-! ## `escapeXmlValue` and `detectIndentation` -/

/-- `escapeXmlValue` : skip escaping entirely when the value already
contains an escaped entity, else escape `&`, `<`, `>` (in that order). -/
def escapeXmlValue (v : Str) : Str :=
  if includes v ("&amp;".toList) || includes v ("&lt;".toList) || includes v ("&gt;".toList) then
    v
  else
    replaceAllChar '>' ("&gt;".toList)
      (replaceAllChar '<' ("&lt;".toList)
        (replaceAllChar '&' ("&amp;".toList) v))

/-- `detectIndentation` : find the last `</resources>` line, then scan
backwards from it for the nearest line with a leading-whitespace-then-`<`
shape; default to four spaces. -/
def detectIndentation (content : Str) : Str :=
  let lines := splitLines content
  match lastIdxOf? (fun l => includes l closeResourcesTok) lines with
  | some ci =>
    if ci > 0 then
      match (lines.take ci).reverse.findSome? leadingIndentOf with
      | some ws => ws
      | none => "    ".toList
    else "    ".toList
  | none => "    ".toList

/-! ## The Reconstructor : `mergeIntoExistingXml` -/

/-- One appended entry line: prefer the caller-supplied raw line for that
key, else a freshly escaped `<string name="k">v</string>`. -/
def renderEntryLine (indent : Str) (rawLines : Option (JsMap Str)) (k v : Str) : Line :=
  indent ++
    (match rawLines with
     | some rl =>
       match jsGet rl k with
       | some raw => raw
       | none => "<string name=\"".toList ++ k ++ "\">".toList ++ escapeXmlValue v ++ closeStringTok
     | none => "<string name=\"".toList ++ k ++ "\">".toList ++ escapeXmlValue v ++ closeStringTok)

/-- The Reconstructor's line loop. The source's nested `while` (skip a
multi-line `<string>` block through its closing line) is rendered as an
explicit skipping flag: in skipping state every line is dropped, and a line
containing `</string>` is the last one dropped. -/
def processLines (names : List Str) : Bool → List Line → List Line
  | _, [] => []
  | true, l :: ls =>
    if includes l closeStringTok then processLines names false ls
    else processLines names true ls
  | false, l :: ls =>
    if includes l closeResourcesTok then l :: processLines names false ls
    else
      match mergeStringMatch l with
      | some k =>
        if names.contains k then
          if includes l closeStringTok then processLines names false ls
          else processLines names true ls
        else l :: processLines names false ls
      | none => l :: processLines names false ls

/-- The lines inserted before `</resources>`: an optional
`<!-- comment -->` (only when at least one entry is added), then one line
per entry. -/
def newEntryLines (indent : Str) (entriesToAdd : JsMap Str) (comment : Option Str)
    (rawLines : Option (JsMap Str)) : List Line :=
  (if jsTruthy comment && !entriesToAdd.isEmpty then
    [indent ++ "<!-- ".toList ++ (comment.getD []) ++ " -->".toList]
   else []) ++
  entriesToAdd.map fun p => renderEntryLine indent rawLines p.1 p.2

/-- `mergeIntoExistingXml` : drop every single- or multi-line `<string>`
block whose key occurs in the source entries, then insert the rendered
source entries immediately before the (last) `</resources>` line,
synthesizing one if the file has none. -/
def mergeIntoExistingXml (originalContent : Str) (sourceEntries : JsMap Str)
    (comment : Option Str) (rawLines : Option (JsMap Str)) : Str :=
  let indent := detectIndentation originalContent
  let lines := splitLines originalContent
  let entriesToAdd := sourceEntries.foldl (fun m p => jsSet m p.1 p.2) []
  let namesToRemove := sourceEntries.map Prod.fst
  let result := processLines namesToRemove false lines
  let (result', closingTagIndex) :=
    match lastIdxOf? (fun l => includes l closeResourcesTok) result with
    | some i => (result, i)
    | none => (result ++ [closeResourcesTok], result.length)
  joinLines
    (result'.take closingTagIndex ++
     newEntryLines indent entriesToAdd comment rawLines ++
     result'.drop closingTagIndex)

/-- `generateStringsXmlContent` : fresh file synthesis for locales with no
existing target. -/
def generateStringsXmlContent (entries : JsMap Str) (indent : Str)
    (comment : Option Str) (rawLines : Option (JsMap Str)) : Str :=
  joinLines
    (["<?xml version=\"1.0\" encoding=\"utf-8\"?>".toList, "<resources>".toList] ++
     (if jsTruthy comment && !entries.isEmpty then
       [indent ++ "<!-- ".toList ++ (comment.getD []) ++ " -->".toList]
      else []) ++
     entries.map (fun p => renderEntryLine indent rawLines p.1 p.2) ++
     [closeResourcesTok, []])

/-! ## The Diff Engine : `generateMergePreviewWithDetails` -/

/-- `LocaleResources` : one locale's resource set. -/
structure LocaleResources where
  locale : Str
  folderName : Str
  entries : JsMap Str
  rawLines : Option (JsMap Str) := none
  rawContent : Option Str := none

inductive DiffType | add | update | unchanged
deriving DecidableEq

structure DiffItem where
  key : Str
  type : DiffType
  newValue : Str
  oldValue : Option Str := none
deriving DecidableEq

inductive DiffLineType | unchanged | updateOld | updateNew | add
deriving DecidableEq

structure XmlDiffLine where
  lineNumber : Nat
  content : Line
  type : DiffLineType
  stringKey : Option Str := none
deriving DecidableEq

structure MergePreviewDetail where
  locale : Str
  folderName : Str
  sourceCount : Nat
  targetCount : Nat
  addCount : Nat
  overwriteCount : Nat
  isNewFile : Bool
  addedItems : List DiffItem
  updatedItems : List DiffItem
  unchangedItems : List DiffItem
  diffLines : List XmlDiffLine
deriving DecidableEq

/-- State of the classification loop over the source entries. -/
structure ClassifyState where
  addedItems : List DiffItem := []
  updatedItems : List DiffItem := []
  unchangedItems : List DiffItem := []
  keysToReplace : List Str := []
  processedKeys : List Str := []
deriving DecidableEq

/-- One step of `source.entries.forEach` : classify `(key, value)` against
the target entries. -/
def classifyStep (targetEntries : JsMap Str) (replaceExisting : Bool)
    (st : ClassifyState) (p : Str × Str) : ClassifyState :=
  let st := { st with processedKeys := st.processedKeys ++ [p.1] }
  match jsGet targetEntries p.1 with
  | some oldValue =>
    if oldValue ≠ p.2 && replaceExisting then
      { st with
        keysToReplace := st.keysToReplace ++ [p.1],
        updatedItems := st.updatedItems ++
          [{ key := p.1, type := .update, newValue := p.2, oldValue := some oldValue }] }
    else
      { st with unchangedItems := st.unchangedItems ++
          [{ key := p.1, type := .unchanged, newValue := oldValue }] }
  | none =>
    { st with addedItems := st.addedItems ++
        [{ key := p.1, type := .add, newValue := p.2 }] }

def classifyFold (sourceEntries targetEntries : JsMap Str) (replaceExisting : Bool) :
    ClassifyState :=
  sourceEntries.foldl (classifyStep targetEntries replaceExisting) {}

/-- The target entries not touched by the source, appended as `unchanged`. -/
def unchangedTail (targetEntries : JsMap Str) (processedKeys : List Str) : List DiffItem :=
  (targetEntries.filter fun p => !processedKeys.contains p.1).map
    fun p => { key := p.1, type := .unchanged, newValue := p.2 }

/-- `diffLines.splice(i, 0, x)`. -/
def spliceAt {α : Type} (i : Nat) (x : α) (l : List α) : List α :=
  l.take i ++ x :: l.drop i

/-- The appended preview line for one new/updated entry: hard-coded
four-space indent, raw line preferred, no escaping in the fallback.
The source (`rawLines?.get(key) || template`) falls back when the raw line
is absent *or* empty (falsy). -/
def previewEntryLine (rawLines : Option (JsMap Str)) (k v : Str) : Line :=
  "    ".toList ++
    (match rawLines with
     | some rl =>
       match jsGet rl k with
       | some raw =>
         if raw.isEmpty then "<string name=\"".toList ++ k ++ "\">".toList ++ v ++ closeStringTok
         else raw
       | none => "<string name=\"".toList ++ k ++ "\">".toList ++ v ++ closeStringTok
     | none => "<string name=\"".toList ++ k ++ "\">".toList ++ v ++ closeStringTok)

/-- The tag of one original target line: `update-old` when the matched key
is marked for replacement, else `unchanged`. -/
def diffTagLine (keysToReplace : List Str) (p : Nat × Line) : XmlDiffLine :=
  match previewStringMatch p.2 with
  | some key =>
    if keysToReplace.contains key then
      { lineNumber := p.1 + 1, content := p.2, type := .updateOld, stringKey := some key }
    else
      { lineNumber := p.1 + 1, content := p.2, type := .unchanged, stringKey := some key }
  | none => { lineNumber := p.1 + 1, content := p.2, type := .unchanged }

/-- One inserted preview line for a new/updated entry. -/
def diffNewLine (rawLines : Option (JsMap Str)) (updatedItems : List DiffItem)
    (e : Str × Str) : XmlDiffLine :=
  { lineNumber := 0,
    content := previewEntryLine rawLines e.1 e.2,
    type :=
      if updatedItems.any (fun u => u.key = e.1) then DiffLineType.updateNew
      else DiffLineType.add,
    stringKey := some e.1 }

/-- The preview for one paired source/target with raw target content:
tag every original line, then insert each new/updated entry at the fixed
index of the (first) `</resources>` line — each `splice` lands in front of
the previously inserted ones. -/
def previewDiffLines (source : LocaleResources) (c : Str) (st : ClassifyState) :
    List XmlDiffLine :=
  let base := (splitLines c).enum.map (diffTagLine st.keysToReplace)
  let allNewEntries :=
    st.updatedItems.map (fun it => (it.key, it.newValue)) ++
    st.addedItems.map (fun it => (it.key, it.newValue))
  if allNewEntries.isEmpty then base
  else
    let insertIndex :=
      match base.findIdx? (fun dl => includes dl.content closeResourcesTok) with
      | some i => i
      | none => base.length
    allNewEntries.foldl
      (fun dls e => spliceAt insertIndex (diffNewLine source.rawLines st.updatedItems e) dls)
      base

/-- Fallback diff lines when the target exists but has no raw content. -/
def fallbackDiffLines (st : ClassifyState) : List XmlDiffLine :=
  st.unchangedItems.enum.map
    (fun p =>
      { lineNumber := p.1 + 1,
        content := "    <string name=\"".toList ++ p.2.key ++ "\">".toList ++
          p.2.newValue ++ closeStringTok,
        type := .unchanged, stringKey := some p.2.key }) ++
  (st.updatedItems.flatMap fun it =>
    [{ lineNumber := 0,
       content := "    <string name=\"".toList ++ it.key ++ "\">".toList ++
         (it.oldValue.getD []) ++ closeStringTok,
       type := .updateOld, stringKey := some it.key },
     { lineNumber := 0,
       content := "    <string name=\"".toList ++ it.key ++ "\">".toList ++
         it.newValue ++ closeStringTok,
       type := .updateNew, stringKey := some it.key }]) ++
  (st.addedItems.map fun it =>
    { lineNumber := 0,
      content := "    <string name=\"".toList ++ it.key ++ "\">".toList ++
        it.newValue ++ closeStringTok,
      type := .add, stringKey := some it.key })

/-- Diff lines for a brand-new locale file. -/
def newFileDiffLines (source : LocaleResources) : List XmlDiffLine :=
  [{ lineNumber := 1, content := "<?xml version=\"1.0\" encoding=\"utf-8\"?>".toList,
     type := .add },
   { lineNumber := 2, content := "<resources>".toList, type := .add }] ++
  (source.entries.map fun p =>
    { lineNumber := 0,
      content := (match source.rawLines with
        | some rl =>
          match jsGet rl p.1 with
          | some raw =>
            if raw.isEmpty then
              "    <string name=\"".toList ++ p.1 ++ "\">".toList ++ p.2 ++ closeStringTok
            else "    ".toList ++ raw
          | none => "    <string name=\"".toList ++ p.1 ++ "\">".toList ++ p.2 ++ closeStringTok
        | none => "    <string name=\"".toList ++ p.1 ++ "\">".toList ++ p.2 ++ closeStringTok),
      type := .add, stringKey := some p.1 }) ++
  [{ lineNumber := 0, content := closeResourcesTok, type := .add }]

/-- The per-pair preview. `target?` is the result of the folder-name lookup;
the first branch requires a truthy (present, non-empty) `rawContent`. -/
def previewOne (source : LocaleResources) (target? : Option LocaleResources)
    (replaceExisting : Bool) : MergePreviewDetail :=
  match target? with
  | some target =>
    if jsTruthy target.rawContent then
      let c := target.rawContent.getD []
      let st := classifyFold source.entries target.entries replaceExisting
      let unchangedItems := st.unchangedItems ++ unchangedTail target.entries st.processedKeys
      { locale := source.locale, folderName := source.folderName,
        sourceCount := source.entries.length, targetCount := target.entries.length,
        addCount := st.addedItems.length, overwriteCount := st.updatedItems.length,
        isNewFile := false,
        addedItems := st.addedItems, updatedItems := st.updatedItems,
        unchangedItems := unchangedItems,
        diffLines := previewDiffLines source c st }
    else
      let st := classifyFold source.entries target.entries replaceExisting
      { locale := source.locale, folderName := source.folderName,
        sourceCount := source.entries.length, targetCount := target.entries.length,
        addCount := st.addedItems.length, overwriteCount := st.updatedItems.length,
        isNewFile := false,
        addedItems := st.addedItems, updatedItems := st.updatedItems,
        unchangedItems := st.unchangedItems,
        diffLines := fallbackDiffLines st }
  | none =>
    { locale := source.locale, folderName := source.folderName,
      sourceCount := source.entries.length, targetCount := 0,
      addCount := source.entries.length, overwriteCount := 0,
      isNewFile := true,
      addedItems := source.entries.map
        (fun p => { key := p.1, type := .add, newValue := p.2 }),
      updatedItems := [], unchangedItems := [],
      diffLines := newFileDiffLines source }

/-- `generateMergePreviewWithDetails` : pair each source with the target of
the same **folder name** (`new Map(targetResources.map(r => [r.folderName, r]))`). -/
def generateMergePreviewWithDetails (sourceResources targetResources : List LocaleResources)
    (replaceExisting : Bool) : List MergePreviewDetail :=
  let targetMap := jsMapOfPairs (targetResources.map fun r => (r.folderName, r))
  sourceResources.map fun s => previewOne s (jsGet targetMap s.folderName) replaceExisting

/-- The pure content computation of `executeMerge` : same folder-name
pairing, then `mergeIntoExistingXml` against a truthy `rawContent` or fresh
synthesis; the per-folder write itself is the external filesystem
collaborator. -/
def executeMergeContents (sourceResources targetResources : List LocaleResources)
    (comment : Option Str) : List (Str × Str) :=
  let targetMap := jsMapOfPairs (targetResources.map fun r => (r.folderName, r))
  sourceResources.map fun s =>
    (s.folderName,
     match jsGet targetMap s.folderName with
     | some target =>
       if jsTruthy target.rawContent then
         mergeIntoExistingXml (target.rawContent.getD []) s.entries comment s.rawLines
       else
         generateStringsXmlContent s.entries ("    ".toList) comment s.rawLines
     | none => generateStringsXmlContent s.entries ("    ".toList) comment s.rawLines)

/-! ## The Entry Extractor : `parseStringsXml` -/

structure DomStringElement where
  name : Option Str
  textContent : Str
deriving DecidableEq

/-- Modelled from the spec: the outcome of `DOMParser.parseFromString`
followed by the `querySelector('parsererror')` and
`querySelector('resources')` checks — the parser is a platform API, not
repository code. A document either reports a parse error, lacks a
`<resources>` root, or yields the `<string>` descendants of `<resources>`
in document order with entity-decoded text content. -/
inductive DomOutcome
  | parseError
  | missingResources
  | parsed (stringElements : List DomStringElement)

structure ParseResult where
  success : Bool
  entries : JsMap Str
  rawLines : JsMap Str
  error : Option Str
deriving DecidableEq

/-- `parseStringsXml` : structural entries from the DOM pass, raw lines
from an independent line scan (`<string` and `</string>` on the same line,
plus a `name=["']...["']` attribute; value is the line with leading
whitespace stripped). -/
def parseStringsXml (dom : DomOutcome) (content : Str) : ParseResult :=
  match dom with
  | .parseError =>
    { success := false, entries := [], rawLines := [], error := some ("XML 格式错误".toList) }
  | .missingResources =>
    { success := false, entries := [], rawLines := [],
      error := some ("未找到 <resources> 标签".toList) }
  | .parsed els =>
    let entries := els.foldl
      (fun m el =>
        match el.name with
        | some n => jsSet m n el.textContent
        | none => m) []
    let rawLines := (splitLines content).foldl
      (fun m line =>
        if !includes line openStringTok then m
        else if !includes line closeStringTok then m
        else
          match nameAttrMatch line with
          | some k => jsSet m k (line.dropWhile isJsWs)
          | none => m) []
    { success := true, entries := entries, rawLines := rawLines, error := none }

/-! ## A concrete DOM model for flat documents

Used to instantiate the re-parse of a merged file in the idempotence
analysis. -/

/-- Modelled from the spec: XML character-entity decoding performed by the
DOM on text content (`&amp;`, `&lt;`, `&gt;`, `&quot;`, `&apos;`). -/
def decodeEntitiesFlat : Str → Str
  | [] => []
  | '&' :: 'a' :: 'm' :: 'p' :: ';' :: rest => '&' :: decodeEntitiesFlat rest
  | '&' :: 'l' :: 't' :: ';' :: rest => '<' :: decodeEntitiesFlat rest
  | '&' :: 'g' :: 't' :: ';' :: rest => '>' :: decodeEntitiesFlat rest
  | '&' :: 'q' :: 'u' :: 'o' :: 't' :: ';' :: rest => '"' :: decodeEntitiesFlat rest
  | '&' :: 'a' :: 'p' :: 'o' :: 's' :: ';' :: rest => '\'' :: decodeEntitiesFlat rest
  | c :: cs => c :: decodeEntitiesFlat cs

/-- Modelled from the spec: one line of the flat
`<string name="k">body</string>` shape (optionally indented), as the DOM
sees it; the text content is entity-decoded. -/
def parseLineFlat (l : Line) : Option (Str × Str) := do
  let l' := l.dropWhile isJsWs
  let r1 ← stripTok ("<string name=\"".toList) l'
  let k := r1.takeWhile (fun c => c ≠ '"')
  if k.isEmpty then none else
  let r2 ← stripTok ("\">".toList) (r1.drop k.length)
  let body := r2.takeWhile (fun c => c ≠ '<')
  let r3 ← stripTok closeStringTok (r2.drop body.length)
  if (r3.dropWhile isJsWs).isEmpty then some (k, decodeEntitiesFlat body) else none

/-- Modelled from the spec: the `entries` map `parseStringsXml` extracts
from a flat document whose `<string>` elements each occupy one line
(document order, later duplicates overwrite). -/
def parseEntriesFlat (content : Str) : JsMap Str :=
  (splitLines content).foldl
    (fun m l =>
      match parseLineFlat l with
      | some p => jsSet m p.1 p.2
      | none => m) []

/-! ## The Locale Resolver : `guessLocaleFromFileName` -/

/-- Case-insensitive character equality (JavaScript `i` flag, ASCII). -/
def ciEq (a b : Char) : Bool := a.toLower = b.toLower

def ciIsPrefixOf : Str → Str → Bool
  | [], _ => true
  | _ :: _, [] => false
  | t :: ts, c :: cs => ciEq c t && ciIsPrefixOf ts cs

/-- `s.replace(/pat$/i, '')` for a literal pattern. -/
def ciStripSuffix (pat s : Str) : Str :=
  if pat.length ≤ s.length && ciIsPrefixOf pat (s.drop (s.length - pat.length)) then
    s.take (s.length - pat.length)
  else s

/-- `s.replace(/pat/i, '')` : remove the first case-insensitive occurrence. -/
def ciRemoveFirst (pat : Str) : Str → Str
  | [] => []
  | c :: cs => if ciIsPrefixOf pat (c :: cs) then (c :: cs).drop pat.length
               else c :: ciRemoveFirst pat cs

/-- `s.replace(/^pat/i, '')`. -/
def ciStripPre (pat s : Str) : Str :=
  if ciIsPrefixOf pat s then s.drop pat.length else s

/-- `baseName.split(/[_-]/)`. -/
def splitSegs : Str → List Str
  | [] => [[]]
  | c :: cs =>
    if c = '_' ∨ c = '-' then [] :: splitSegs cs
    else
      match splitSegs cs with
      | l :: ls => (c :: l) :: ls
      | [] => [[c]]

def toLowerStr (s : Str) : Str := s.map Char.toLower
def toUpperStr (s : Str) : Str := s.map Char.toUpper

/-- `/^[A-Z]{2}$/.test(region)`. -/
def isTwoUpper (s : Str) : Bool :=
  match s with
  | [a, b] => 'A' ≤ a && a ≤ 'Z' && 'A' ≤ b && b ≤ 'Z'
  | _ => false

/-- `guessLocaleFromFileName` : strip `.xml` and `strings` affixes, split on
`_`/`-`, then apply the default/English/region/language rules in order. -/
def guessLocaleFromFileName (fileName : Str) : Str × Str :=
  let baseName :=
    ciStripPre ("strings_".toList)
      (ciRemoveFirst ("strings_".toList)
        (ciStripSuffix ("_strings".toList)
          (ciStripSuffix (".xml".toList) fileName)))
  let parts := splitSegs baseName
  if parts.length = 0 ∨ baseName = [] ∨ baseName = "strings".toList then
    ("default".toList, "values".toList)
  else if toLowerStr (parts.headD []) = "en".toList ∧ parts.length = 1 then
    ("default".toList, "values".toList)
  else
    let regionCase :=
      if h : parts.length ≥ 2 then
        let lang := toLowerStr (parts.headD [])
        let region := toUpperStr (parts.get ⟨1, by omega⟩)
        if region.length = 2 && isTwoUpper region then
          some (lang ++ "-r".toList ++ region, ("values-".toList) ++ lang ++ "-r".toList ++ region)
        else none
      else none
    match regionCase with
    | some r => r
    | none =>
      let locale := toLowerStr (parts.headD [])
      (locale, ("values-".toList) ++ locale)

/-! ## The Mapping Coordinator : reconciliation in `selectSourceDir` -/

structure LocaleMapping where
  sourceFileName : Str
  targetFolder : Str
  locale : Str
  enabled : Bool
  entryCount : Nat
deriving DecidableEq

/-- The scanned-source-file data the reconciliation consumes
(`SourceXmlFile` without the file handle). -/
structure SourceXmlFile where
  fileName : Str
  entries : JsMap Str
  suggestedLocale : Str
  suggestedFolder : Str
deriving DecidableEq

/-- The comparison `a.targetFolder.localeCompare(b.targetFolder) ≤ 0`,
with `localeCompare` modelled as code-point comparison (the claim under
analysis only depends on the result being sorted by target folder). -/
def mappingLE (a b : LocaleMapping) : Prop :=
  a.targetFolder ≤ b.targetFolder

instance : DecidableRel mappingLE := fun a b =>
  inferInstanceAs (Decidable (a.targetFolder ≤ b.targetFolder))

/-- The mapping reconciliation performed by `selectSourceDir` on a rescan:
keep an existing mapping (matched by `sourceFileName`) refreshing only
`entryCount`, synthesize fresh enabled mappings for new files, drop
mappings for vanished files, sort by target folder. -/
def selectSourceDirMappings (mappings : List LocaleMapping)
    (files : List SourceXmlFile) : List LocaleMapping :=
  let existingMappingMap := jsMapOfPairs (mappings.map fun m => (m.sourceFileName, m))
  let newMappings := files.map fun f =>
    match jsGet existingMappingMap f.fileName with
    | some existing => { existing with entryCount := f.entries.length }
    | none =>
      { sourceFileName := f.fileName, targetFolder := f.suggestedFolder,
        locale := f.suggestedLocale, enabled := true, entryCount := f.entries.length }
  newMappings.insertionSort mappingLE

/-! ## Infrastructure lemmas -/

/-- A line survives the Reconstructor's removal pass iff it does not open a
`<string>` element whose key is in the replace-set. -/
def keepLine (names : List Str) (l : Line) : Bool :=
  match mergeStringMatch l with
  | some k => !names.contains k
  | none => true

theorem processLines_append_filter (names : List Str) (A B : List Line)
    (h : ∀ l ∈ A, ∀ k, mergeStringMatch l = some k → names.contains k = true →
      includes l closeStringTok = true ∧ includes l closeResourcesTok = false) :
    processLines names false (A ++ B) =
      A.filter (keepLine names) ++ processLines names false B := by
  induction A with
  | nil => simp
  | cons l ls ih =>
    have hl := h l (by simp)
    have hls : ∀ l ∈ ls, ∀ k, mergeStringMatch l = some k → names.contains k = true →
        includes l closeStringTok = true ∧ includes l closeResourcesTok = false :=
      fun l' hl' => h l' (by simp [hl'])
    simp only [List.cons_append, processLines]
    by_cases hres : includes l closeResourcesTok = true
    · have hkeep : keepLine names l = true := by
        unfold keepLine
        cases hm : mergeStringMatch l with
        | none => rfl
        | some k =>
          by_cases hc : names.contains k = true
          · exact absurd hres (by simp [(hl k hm hc).2])
          · simp at hc
            simp [hc]
      simp [hres, List.filter_cons, hkeep, ih hls]
    · simp only [Bool.not_eq_true] at hres
      simp only [hres, Bool.false_eq_true, if_false]
      cases hm : mergeStringMatch l with
      | none => simp [List.filter_cons, keepLine, hm, ih hls]
      | some k =>
        by_cases hc : names.contains k = true
        · have hcs := (hl k hm hc).1
          have hkmem : k ∈ names := by simpa using hc
          simp [hcs, hc, List.filter_cons, keepLine, hm, ih hls, hkmem]
        · simp only [Bool.not_eq_true] at hc
          have hkmem : k ∉ names := by simpa using hc
          simp [hc, List.filter_cons, keepLine, hm, ih hls, hkmem]

theorem processLines_nil (names : List Str) (b : Bool) : processLines names b [] = [] := by
  cases b <;> rfl

theorem processLines_skip_all (names : List Str) (rest : List Line)
    (h : ∀ l ∈ rest, includes l closeStringTok = false) :
    processLines names true rest = [] := by
  induction rest with
  | nil => rfl
  | cons l ls ih =>
    have := h l (by simp)
    simp only [processLines, this, Bool.false_eq_true, if_false]
    exact ih fun l' hl' => h l' (by simp [hl'])

theorem processLines_no_names (lines : List Line) :
    processLines [] false lines = lines := by
  induction lines with
  | nil => rfl
  | cons l ls ih =>
    simp only [processLines]
    by_cases hres : includes l closeResourcesTok = true
    · simp [hres, ih]
    · simp only [Bool.not_eq_true] at hres
      simp only [hres, Bool.false_eq_true, if_false]
      cases hm : mergeStringMatch l with
      | none => simp [ih]
      | some k => simp [ih]

theorem lastIdxOf?_append_last {α : Type} (p : α → Bool) (A B : List α) (x : α)
    (hx : p x = true) (hB : ∀ b ∈ B, p b = false) :
    lastIdxOf? p (A ++ x :: B) = some A.length := by
  induction A with
  | nil =>
    have hBnone : lastIdxOf? p B = none := by
      clear hx
      induction B with
      | nil => rfl
      | cons b bs ihb =>
        have hb := hB b (by simp)
        simp only [lastIdxOf?, ihb fun b' hb' => hB b' (by simp [hb'])]
        simp [hb]
    simp [lastIdxOf?, hBnone, hx]
  | cons a as ih =>
    simp only [List.cons_append, lastIdxOf?, List.append_eq, ih, List.length_cons]

theorem lastIdxOf?_isSome {α : Type} (p : α → Bool) (l : List α)
    (h : ∃ x ∈ l, p x = true) : (lastIdxOf? p l).isSome = true := by
  induction l with
  | nil => simp at h
  | cons a as ih =>
    simp only [lastIdxOf?]
    cases hrec : lastIdxOf? p as with
    | some i => simp
    | none =>
      obtain ⟨x, hx, hpx⟩ := h
      rcases List.mem_cons.mp hx with rfl | hx'
      · simp [hpx]
      · have := ih ⟨x, hx', hpx⟩
        simp [hrec] at this

/-- `jsSet` on an absent key appends. -/
theorem jsSet_append_of_not_has {V : Type} (m : JsMap V) (k : Str) (v : V)
    (h : jsHas m k = false) : jsSet m k v = m ++ [(k, v)] := by
  induction m with
  | nil => rfl
  | cons p rest ih =>
    obtain ⟨k', v'⟩ := p
    by_cases hk : k' = k
    · subst hk
      simp [jsHas, jsGet] at h
    · simp only [jsSet, if_neg hk, List.cons_append, List.cons.injEq, true_and]
      exact ih (by simpa [jsHas, jsGet, hk] using h)

/-- `jsGet` only returns stored bindings. -/
theorem jsGet_mem {V : Type} (m : JsMap V) (k : Str) (v : V)
    (h : jsGet m k = some v) : (k, v) ∈ m := by
  induction m with
  | nil => simp [jsGet] at h
  | cons p rest ih =>
    obtain ⟨k', v'⟩ := p
    by_cases hk : k' = k
    · subst hk
      simp [jsGet] at h
      exact List.mem_cons.mpr (Or.inl (by rw [h]))
    · simp only [jsGet, if_neg hk] at h
      exact List.mem_cons_of_mem _ (ih h)

/-- Folding `jsSet` over pairs with fresh distinct keys appends them all. -/
theorem foldl_jsSet_of_nodup {V : Type} (src : List (Str × V)) :
    ∀ (m : JsMap V), ((m ++ src).map Prod.fst).Nodup →
      src.foldl (fun m p => jsSet m p.1 p.2) m = m ++ src := by
  induction src with
  | nil => intro m _; simp
  | cons p rest ih =>
    intro m hnd
    obtain ⟨k, v⟩ := p
    have hnotin : jsHas m k = false := by
      by_contra hhas
      simp only [Bool.not_eq_false, jsHas, Option.isSome_iff_exists] at hhas
      obtain ⟨v0, hv0⟩ := hhas
      have hmem : (k, v0) ∈ m := jsGet_mem m k v0 hv0
      have h1 : k ∈ m.map Prod.fst := List.mem_map.mpr ⟨(k, v0), hmem, rfl⟩
      have h2 : k ∈ ((k, v) :: rest).map Prod.fst := by
        simp only [List.map_cons]
        exact List.mem_cons_self _ _
      have := (List.nodup_append.mp (by simpa using hnd)).2.2
      exact this h1 h2
    simp only [List.foldl_cons]
    rw [jsSet_append_of_not_has m k v hnotin]
    have := ih (m ++ [(k, v)]) (by simpa using hnd)
    simpa using this

/-- Looking up a key in a fold of `jsSet`s whose keys all differ from it is
transparent. -/
theorem jsGet_foldl_jsSet_of_ne {V : Type} (src : List (Str × V)) (f : Str × V → V)
    (k : Str) : ∀ (m : JsMap V), (∀ p ∈ src, p.1 ≠ k) →
      jsGet (src.foldl (fun m p => jsSet m p.1 (f p)) m) k = jsGet m k := by
  induction src with
  | nil => intro m _; rfl
  | cons p rest ih =>
    intro m h
    simp only [List.foldl_cons]
    rw [ih _ fun q hq => h q (by simp [hq])]
    exact jsGet_set_other m p.1 k (f p) (h p (by simp))

/-- Looking up a key bound by a fold of `jsSet`s with distinct keys. -/
theorem jsGet_foldl_jsSet_of_mem {V : Type} (src : List (Str × V)) (f : Str × V → V)
    (hnd : (src.map Prod.fst).Nodup) (k : Str) (v : V) (hmem : (k, v) ∈ src) :
    ∀ (m : JsMap V),
      jsGet (src.foldl (fun m p => jsSet m p.1 (f p)) m) k = some (f (k, v)) := by
  induction src with
  | nil => simp at hmem
  | cons p rest ih =>
    intro m
    simp only [List.map_cons, List.nodup_cons] at hnd
    simp only [List.foldl_cons]
    rcases List.mem_cons.mp hmem with rfl | hmem'
    · rw [jsGet_foldl_jsSet_of_ne]
      · exact jsGet_set_self m k (f (k, v))
      · intro q hq
        have h1 : q.1 ∈ rest.map Prod.fst := List.mem_map.mpr ⟨q, hq, rfl⟩
        intro hk
        rw [hk] at h1
        exact hnd.1 h1
    · exact ih hnd.2 hmem' _

theorem mem_jsSet {V : Type} (m : JsMap V) (k k' : Str) (v v' : V)
    (h : (k, v) ∈ jsSet m k' v') : (k, v) ∈ m ∨ (k = k' ∧ v = v') := by
  induction m with
  | nil =>
    simp only [jsSet, List.mem_singleton, Prod.mk.injEq] at h
    exact Or.inr h
  | cons p rest ih =>
    obtain ⟨k₀, v₀⟩ := p
    by_cases hk : k₀ = k'
    · subst hk
      have hset : jsSet ((k₀, v₀) :: rest) k₀ v' = (k₀, v') :: rest := by
        simp [jsSet]
      rw [hset] at h
      rcases List.mem_cons.mp h with heq | hmem
      · simp only [Prod.mk.injEq] at heq
        exact Or.inr heq
      · exact Or.inl (List.mem_cons_of_mem _ hmem)
    · simp only [jsSet, if_neg hk] at h
      rcases List.mem_cons.mp h with heq | hmem
      · exact Or.inl (by simp [heq])
      · rcases ih hmem with h1 | h2
        · exact Or.inl (List.mem_cons_of_mem _ h1)
        · exact Or.inr h2

theorem mem_foldl_jsSet {V : Type} (pairs : List (Str × V)) (k : Str) (v : V) :
    ∀ (m : JsMap V), (k, v) ∈ pairs.foldl (fun m p => jsSet m p.1 p.2) m →
      (k, v) ∈ m ∨ (k, v) ∈ pairs := by
  induction pairs with
  | nil => intro m hm; exact Or.inl hm
  | cons p rest ih =>
    intro m hm
    simp only [List.foldl_cons] at hm
    rcases ih (jsSet m p.1 p.2) hm with h1 | h2
    · rcases mem_jsSet m k p.1 v p.2 h1 with h3 | h4
      · exact Or.inl h3
      · refine Or.inr (List.mem_cons.mpr (Or.inl ?_))
        rw [Prod.ext_iff]
        exact h4
    · exact Or.inr (List.mem_cons_of_mem _ h2)

theorem mem_jsMapOfPairs {V : Type} (pairs : List (Str × V)) (k : Str) (v : V)
    (h : (k, v) ∈ jsMapOfPairs pairs) : (k, v) ∈ pairs := by
  rcases mem_foldl_jsSet pairs k v [] h with h1 | h2
  · simp at h1
  · exact h2

/-- No line produced by `splitLines` contains a newline. -/
theorem splitLines_no_newline (s : Str) : ∀ l ∈ splitLines s, '\n' ∉ l := by
  induction s with
  | nil => intro l hl; simp [splitLines] at hl; simp [hl]
  | cons c cs ih =>
    intro l hl
    by_cases h : c = '\n'
    · subst h
      simp only [splitLines, if_pos rfl] at hl
      rcases List.mem_cons.mp hl with rfl | hl'
      · simp
      · exact ih l hl'
    · simp only [splitLines, if_neg h] at hl
      cases hs : splitLines cs with
      | nil => exact absurd hs (splitLines_ne_nil cs)
      | cons l₀ ls₀ =>
        rw [hs] at hl
        rcases List.mem_cons.mp hl with rfl | hl'
        · intro hmem
          rcases List.mem_cons.mp hmem with rfl | hmem'
          · exact h rfl
          · exact ih l₀ (by simp [hs]) hmem'
        · exact ih l (by simp [hs, hl'])

/-- Splitting a join of newline-free lines recovers the lines. -/
theorem splitLines_joinLines (ls : List Line) (hne : ls ≠ [])
    (h : ∀ l ∈ ls, '\n' ∉ l) : splitLines (joinLines ls) = ls := by
  induction ls with
  | nil => exact absurd rfl hne
  | cons l rest ih =>
    have hsingle : ∀ (l : Line), '\n' ∉ l → splitLines l = [l] := by
      intro l hl
      induction l with
      | nil => rfl
      | cons c cs ihc =>
        have hc : c ≠ '\n' := fun hc => hl (by simp [hc])
        simp only [splitLines, if_neg hc]
        rw [ihc fun hmem => hl (List.mem_cons_of_mem _ hmem)]
    cases rest with
    | nil => exact hsingle l (h l (by simp))
    | cons l' rest' =>
      have hjoin : joinLines (l :: l' :: rest') = l ++ '\n' :: joinLines (l' :: rest') := rfl
      rw [hjoin]
      have hstep : ∀ (pre : Line), '\n' ∉ pre →
          splitLines (pre ++ '\n' :: joinLines (l' :: rest')) =
            pre :: splitLines (joinLines (l' :: rest')) := by
        intro pre hpre
        induction pre with
        | nil => simp [splitLines]
        | cons c cs ihp =>
          have hc : c ≠ '\n' := fun hc => hpre (by simp [hc])
          simp only [List.cons_append, splitLines, if_neg hc, List.append_eq]
          rw [ihp fun hmem => hpre (List.mem_cons_of_mem _ hmem)]
      rw [hstep l (h l (by simp))]
      rw [ih (by simp) fun l'' hl'' => h l'' (List.mem_cons_of_mem _ hl'')]

/-- The update condition of the classifier: the target has the key with a
different value, and replacement is enabled. -/
def updFilter (tE : JsMap Str) (b : Bool) (q : Str × Str) : Bool :=
  match jsGet tE q.1 with
  | some old => decide (old ≠ q.2) && b
  | none => false

/-- The unchanged classification of one source entry (present with equal
value, or present with different value while replacement is disabled). -/
def unchangedOfSource (tE : JsMap Str) (b : Bool) (q : Str × Str) : Option DiffItem :=
  match jsGet tE q.1 with
  | some old =>
    if decide (old ≠ q.2) && b then none
    else some { key := q.1, type := .unchanged, newValue := old }
  | none => none

theorem classifyFold_spec (tE : JsMap Str) (b : Bool) :
    ∀ (src : JsMap Str) (st : ClassifyState),
      src.foldl (classifyStep tE b) st =
        { addedItems := st.addedItems ++
            (src.filter fun q => !jsHas tE q.1).map
              (fun q => { key := q.1, type := .add, newValue := q.2 }),
          updatedItems := st.updatedItems ++
            (src.filter (updFilter tE b)).map
              (fun q => { key := q.1, type := .update, newValue := q.2,
                          oldValue := jsGet tE q.1 }),
          unchangedItems := st.unchangedItems ++ src.filterMap (unchangedOfSource tE b),
          keysToReplace := st.keysToReplace ++ (src.filter (updFilter tE b)).map Prod.fst,
          processedKeys := st.processedKeys ++ src.map Prod.fst } := by
  intro src
  induction src with
  | nil => intro st; simp
  | cons q rest ih =>
    intro st
    simp only [List.foldl_cons]
    rw [ih]
    cases hget : jsGet tE q.1 with
    | none =>
      simp [classifyStep, hget, updFilter, unchangedOfSource, jsHas,
        List.filter_cons, List.filterMap_cons]
    | some old =>
      by_cases hcond : ¬old = q.2 ∧ b = true
      · have hcondb : (decide (old ≠ q.2) && b) = true := by
          simp [Bool.and_eq_true, decide_eq_true_iff, hcond.1, hcond.2]
        simp [classifyStep, hget, updFilter, unchangedOfSource, jsHas,
          List.filter_cons, List.filterMap_cons, hcond, hcondb]
      · have hcondb : (decide (old ≠ q.2) && b) = false := by
          cases hb : decide (old ≠ q.2) && b
          · rfl
          · exact absurd (by simpa [Bool.and_eq_true, decide_eq_true_iff] using hb) hcond
        simp [classifyStep, hget, updFilter, unchangedOfSource, jsHas,
          List.filter_cons, List.filterMap_cons, hcond, hcondb]

/-! ## C1 : round-trip on a no-op merge -/

/-- C1: for a well-formed target text `T` (it has a `</resources>` line)
and an empty replace-set (no entries to add or replace, no comment),
`mergeIntoExistingXml` returns `T` unchanged — the source whose entries all
already match `T` contributes the empty replace-set, and no line-ending
rewriting occurs. -/
theorem mergeIntoExistingXml_noop (content : Str) (rawLines : Option (JsMap Str))
    (h : ∃ l ∈ splitLines content, includes l closeResourcesTok = true) :
    mergeIntoExistingXml content [] none rawLines = content := by
  have hsome := lastIdxOf?_isSome (fun l => includes l closeResourcesTok) (splitLines content) h
  obtain ⟨i, hi⟩ := Option.isSome_iff_exists.mp hsome
  have hnew : newEntryLines (detectIndentation content) [] none rawLines = [] := by
    simp [newEntryLines, jsTruthy]
  simp only [mergeIntoExistingXml, List.map_nil, List.foldl_nil, processLines_no_names, hi, hnew]
  simp only [List.nil_append, List.append_nil]
  rw [List.take_append_drop]
  exact joinLines_splitLines content

/-- C1 witness at a concrete well-formed file. -/
theorem mergeIntoExistingXml_noop_witness :
    mergeIntoExistingXml
      ("<resources>\n    <string name=\"a\">1</string>\n</resources>".toList)
      [] none none =
      "<resources>\n    <string name=\"a\">1</string>\n</resources>".toList :=
  mergeIntoExistingXml_noop _ none (by decide)

/-! ## C3 : classification of source entries against the target -/

/-- C3: in `generateMergePreviewWithDetails`, for a paired target carrying
raw content, a source entry absent from the target is classified `add`;
present with a different value it is `update` exactly when
`replaceExisting` holds, else `unchanged` carrying the old value; present
with the same value it is `unchanged`; and every target key not in the
source is also recorded `unchanged`. -/
theorem previewOne_classification (s t : LocaleResources) (b : Bool)
    (ht : jsTruthy t.rawContent = true) :
    (previewOne s (some t) b).addedItems =
      (s.entries.filter fun q => !jsHas t.entries q.1).map
        (fun q => { key := q.1, type := .add, newValue := q.2 }) ∧
    (previewOne s (some t) b).updatedItems =
      (s.entries.filter (updFilter t.entries b)).map
        (fun q => { key := q.1, type := .update, newValue := q.2,
                    oldValue := jsGet t.entries q.1 }) ∧
    (previewOne s (some t) b).unchangedItems =
      s.entries.filterMap (unchangedOfSource t.entries b) ++
      (t.entries.filter fun q => !(s.entries.map Prod.fst).contains q.1).map
        (fun q => { key := q.1, type := .unchanged, newValue := q.2 }) := by
  simp only [previewOne, ht, if_true, classifyFold]
  rw [classifyFold_spec]
  refine ⟨rfl, rfl, ?_⟩
  simp [unchangedTail]

/-- C3 witness: a target with one matching, one differing, one absent and
one untouched key. -/
theorem previewOne_classification_witness :
    (previewOne
        { locale := "default".toList, folderName := "values".toList,
          entries := [("a".toList, "1".toList), ("b".toList, "2".toList),
                      ("c".toList, "3".toList)] }
        (some
          { locale := "default".toList, folderName := "values".toList,
            entries := [("a".toList, "1".toList), ("b".toList, "9".toList),
                        ("d".toList, "4".toList)],
            rawContent := some ("<resources>\n</resources>".toList) })
        true).addedItems =
      [{ key := "c".toList, type := .add, newValue := "3".toList }] ∧
    (previewOne
        { locale := "default".toList, folderName := "values".toList,
          entries := [("a".toList, "1".toList), ("b".toList, "2".toList),
                      ("c".toList, "3".toList)] }
        (some
          { locale := "default".toList, folderName := "values".toList,
            entries := [("a".toList, "1".toList), ("b".toList, "9".toList),
                        ("d".toList, "4".toList)],
            rawContent := some ("<resources>\n</resources>".toList) })
        true).unchangedItems =
      [{ key := "a".toList, type := .unchanged, newValue := "1".toList },
       { key := "d".toList, type := .unchanged, newValue := "4".toList }] := by
  have h := previewOne_classification
    { locale := "default".toList, folderName := "values".toList,
      entries := [("a".toList, "1".toList), ("b".toList, "2".toList),
                  ("c".toList, "3".toList)] }
    { locale := "default".toList, folderName := "values".toList,
      entries := [("a".toList, "1".toList), ("b".toList, "9".toList),
                  ("d".toList, "4".toList)],
      rawContent := some ("<resources>\n</resources>".toList) }
    true (by decide)
  refine ⟨?_, ?_⟩
  · rw [h.1]; decide
  · rw [h.2.2]; decide

/-! ## C4 : pairing is by target folder name, not locale -/

/-- C4: both the detailed preview and the merge executor pair a source with
the target whose `folderName` equals the source's, even when a different
target's `locale` matches the source's locale — a source remapped to a
nonstandard folder is diffed and merged against that folder's file. -/
theorem pairing_by_folderName (s t1 t2 : LocaleResources) (b : Bool) (comment : Option Str)
    (h1 : t1.folderName = s.folderName)
    (h2 : t2.folderName ≠ s.folderName)
    (hl : t2.locale = s.locale)
    (hl1 : t1.locale ≠ s.locale) :
    generateMergePreviewWithDetails [s] [t2, t1] b = [previewOne s (some t1) b] ∧
    executeMergeContents [s] [t2, t1] comment = executeMergeContents [s] [t1] comment := by
  have hne : t2.folderName ≠ t1.folderName := by rw [h1]; exact h2
  have hmap : jsMapOfPairs [(t2.folderName, t2), (t1.folderName, t1)] =
      [(t2.folderName, t2), (t1.folderName, t1)] := by
    simp [jsMapOfPairs, jsSet, hne]
  have hget : jsGet [(t2.folderName, t2), (t1.folderName, t1)] s.folderName = some t1 := by
    simp [jsGet, h1, h2]
  constructor
  · simp [generateMergePreviewWithDetails, hmap, hget]
  · simp [executeMergeContents, hmap, hget, jsMapOfPairs, jsSet, jsGet, h1, h2]

/-- C4 witness: the locale-matching target is ignored in favour of the
folder-matching one. -/
theorem pairing_by_folderName_witness :
    generateMergePreviewWithDetails
      [{ locale := "de".toList, folderName := "values-custom".toList, entries := [] }]
      [{ locale := "de".toList, folderName := "values-de".toList, entries := [] },
       { locale := "x".toList, folderName := "values-custom".toList, entries := [] }]
      true =
    [previewOne
      { locale := "de".toList, folderName := "values-custom".toList, entries := [] }
      (some { locale := "x".toList, folderName := "values-custom".toList, entries := [] })
      true] :=
  (pairing_by_folderName
    { locale := "de".toList, folderName := "values-custom".toList, entries := [] }
    { locale := "x".toList, folderName := "values-custom".toList, entries := [] }
    { locale := "de".toList, folderName := "values-de".toList, entries := [] }
    true none (by decide) (by decide) (by decide) (by decide)).1

/-! ## C7 : locale resolution table -/

/-- C7: `guessLocaleFromFileName` resolves the five documented filenames
exactly as tabulated. -/
theorem guessLocale_resolution_table :
    guessLocaleFromFileName ("ar_strings.xml".toList) =
      ("ar".toList, "values-ar".toList) ∧
    guessLocaleFromFileName ("zh_CN_strings.xml".toList) =
      ("zh-rCN".toList, "values-zh-rCN".toList) ∧
    guessLocaleFromFileName ("en_strings.xml".toList) =
      ("default".toList, "values".toList) ∧
    guessLocaleFromFileName ("strings.xml".toList) =
      ("default".toList, "values".toList) ∧
    guessLocaleFromFileName ("pt_br_strings.xml".toList) =
      ("pt-rBR".toList, "values-pt-rBR".toList) := by
  refine ⟨?_, ?_, ?_, ?_, ?_⟩ <;> decide

/-! ## C9 : the Entry Extractor fails structurally, it does not throw -/

/-- C9: whenever the XML layer reports a malformed document or a document
without a `<resources>` root, `parseStringsXml` returns `success := false`,
an error message and an empty entries map — as a total function it raises
no exception. -/
theorem parseStringsXml_expected_failures (dom : DomOutcome) (content : Str)
    (h : dom = DomOutcome.parseError ∨ dom = DomOutcome.missingResources) :
    (parseStringsXml dom content).success = false ∧
    (parseStringsXml dom content).entries = [] ∧
    (parseStringsXml dom content).error.isSome = true := by
  rcases h with h | h <;> subst h <;> exact ⟨rfl, rfl, rfl⟩

/-- C9 witness at a malformed document. -/
theorem parseStringsXml_expected_failures_witness :
    (parseStringsXml DomOutcome.parseError ("<resources".toList)).success = false ∧
    (parseStringsXml DomOutcome.parseError ("<resources".toList)).entries = [] ∧
    (parseStringsXml DomOutcome.parseError ("<resources".toList)).error.isSome = true :=
  parseStringsXml_expected_failures DomOutcome.parseError ("<resources".toList) (Or.inl rfl)

/-! ## C8 : mapping reconciliation on rescan -/

instance : IsTotal LocaleMapping mappingLE :=
  ⟨fun a b => le_total a.targetFolder b.targetFolder⟩

instance : IsTrans LocaleMapping mappingLE :=
  ⟨fun _ _ _ h1 h2 => le_trans h1 h2⟩

/-- The mapping synthesized by `selectSourceDir` for one scanned file. -/
def reconcileOne (mappings : List LocaleMapping) (f : SourceXmlFile) : LocaleMapping :=
  match jsGet (jsMapOfPairs (mappings.map fun m => (m.sourceFileName, m))) f.fileName with
  | some existing => { existing with entryCount := f.entries.length }
  | none =>
    { sourceFileName := f.fileName, targetFolder := f.suggestedFolder,
      locale := f.suggestedLocale, enabled := true, entryCount := f.entries.length }

theorem selectSourceDirMappings_perm (mappings : List LocaleMapping)
    (files : List SourceXmlFile) :
    (selectSourceDirMappings mappings files).Perm (files.map (reconcileOne mappings)) := by
  unfold selectSourceDirMappings reconcileOne
  exact List.perm_insertionSort mappingLE _

/-- C8: on a rescan, a scanned file matching an existing mapping keeps that
mapping's targetFolder, locale and enabled flag with only `entryCount`
refreshed; a file with no existing mapping gets a fresh enabled mapping
from the suggestion; every resulting mapping corresponds to a scanned file
(mappings for vanished files are dropped); and the result is sorted by
target folder. -/
theorem selectSourceDir_reconciliation (mappings : List LocaleMapping)
    (files : List SourceXmlFile) :
    (∀ f ∈ files, ∀ m,
        jsGet (jsMapOfPairs (mappings.map fun m => (m.sourceFileName, m))) f.fileName =
          some m →
        { m with entryCount := f.entries.length } ∈ selectSourceDirMappings mappings files) ∧
    (∀ f ∈ files,
        jsGet (jsMapOfPairs (mappings.map fun m => (m.sourceFileName, m))) f.fileName =
          none →
        ({ sourceFileName := f.fileName, targetFolder := f.suggestedFolder,
           locale := f.suggestedLocale, enabled := true,
           entryCount := f.entries.length } : LocaleMapping) ∈
          selectSourceDirMappings mappings files) ∧
    (∀ m' ∈ selectSourceDirMappings mappings files, ∃ f ∈ files,
        m'.sourceFileName = f.fileName) ∧
    (selectSourceDirMappings mappings files).Sorted mappingLE := by
  have hperm := selectSourceDirMappings_perm mappings files
  refine ⟨?_, ?_, ?_, ?_⟩
  · intro f hf m hget
    rw [hperm.mem_iff]
    refine List.mem_map.mpr ⟨f, hf, ?_⟩
    simp [reconcileOne, hget]
  · intro f hf hget
    rw [hperm.mem_iff]
    refine List.mem_map.mpr ⟨f, hf, ?_⟩
    simp [reconcileOne, hget]
  · intro m' hm'
    rw [hperm.mem_iff] at hm'
    obtain ⟨f, hf, hbody⟩ := List.mem_map.mp hm'
    refine ⟨f, hf, ?_⟩
    unfold reconcileOne at hbody
    cases hget : jsGet (jsMapOfPairs (mappings.map fun m => (m.sourceFileName, m)))
        f.fileName with
    | some m0 =>
      rw [hget] at hbody
      have hmem := mem_jsMapOfPairs _ _ _ (jsGet_mem _ _ _ hget)
      obtain ⟨m1, _, hm1⟩ := List.mem_map.mp hmem
      have hkey : m0.sourceFileName = f.fileName := by
        have h1 : m1.sourceFileName = f.fileName := congrArg Prod.fst hm1
        have h2 : m1 = m0 := congrArg Prod.snd hm1
        rw [← h2]; exact h1
      rw [← hbody]
      exact hkey
    | none =>
      rw [hget] at hbody
      rw [← hbody]
  · unfold selectSourceDirMappings
    exact List.sorted_insertionSort mappingLE _

/-- C8 witness: the spec's example — an existing disabled custom mapping
survives a rescan with a different suggestion, only `entryCount` refreshes,
and a fresh file gets an enabled suggested mapping. -/
theorem selectSourceDir_reconciliation_witness :
    ({ sourceFileName := "x.xml".toList, targetFolder := "values-custom".toList,
       locale := "de".toList, enabled := false, entryCount := 1 } : LocaleMapping) ∈
      selectSourceDirMappings
        [{ sourceFileName := "x.xml".toList, targetFolder := "values-custom".toList,
           locale := "de".toList, enabled := false, entryCount := 5 }]
        [{ fileName := "x.xml".toList, entries := [("a".toList, "1".toList)],
           suggestedLocale := "de".toList, suggestedFolder := "values-de".toList }] ∧
    ({ sourceFileName := "y.xml".toList, targetFolder := "values-fr".toList,
       locale := "fr".toList, enabled := true, entryCount := 0 } : LocaleMapping) ∈
      selectSourceDirMappings
        [{ sourceFileName := "x.xml".toList, targetFolder := "values-custom".toList,
           locale := "de".toList, enabled := false, entryCount := 5 }]
        [{ fileName := "y.xml".toList, entries := [],
           suggestedLocale := "fr".toList, suggestedFolder := "values-fr".toList }] := by
  constructor
  · exact (selectSourceDir_reconciliation
      [{ sourceFileName := "x.xml".toList, targetFolder := "values-custom".toList,
         locale := "de".toList, enabled := false, entryCount := 5 }]
      [{ fileName := "x.xml".toList, entries := [("a".toList, "1".toList)],
         suggestedLocale := "de".toList, suggestedFolder := "values-de".toList }]).1
      { fileName := "x.xml".toList, entries := [("a".toList, "1".toList)],
        suggestedLocale := "de".toList, suggestedFolder := "values-de".toList }
      (by decide)
      { sourceFileName := "x.xml".toList, targetFolder := "values-custom".toList,
        locale := "de".toList, enabled := false, entryCount := 5 }
      (by decide)
  · exact (selectSourceDir_reconciliation
      [{ sourceFileName := "x.xml".toList, targetFolder := "values-custom".toList,
         locale := "de".toList, enabled := false, entryCount := 5 }]
      [{ fileName := "y.xml".toList, entries := [],
         suggestedLocale := "fr".toList, suggestedFolder := "values-fr".toList }]).2.1
      { fileName := "y.xml".toList, entries := [],
        suggestedLocale := "fr".toList, suggestedFolder := "values-fr".toList }
      (by decide) (by decide)

theorem lastIdxOf?_none {α : Type} (p : α → Bool) (l : List α)
    (h : ∀ a ∈ l, p a = false) : lastIdxOf? p l = none := by
  induction l with
  | nil => rfl
  | cons a as ih =>
    simp only [lastIdxOf?, ih fun a' ha' => h a' (by simp [ha'])]
    simp [h a (by simp)]

/-! ## C2 : relocation, not in-place edit -/

/-- C2: for a target whose `<string>` entries carry keys `a`, `b`, `c` in
that order, merging an update of `b` alone keeps the `a` and `c` lines
unchanged in their original relative positions, drops the original `b`
line, and inserts the new `b` line immediately before the `</resources>`
line — `b` does not reappear between `a` and `c`. -/
theorem mergeIntoExistingXml_relocates
    (content : Str) (rawLines : Option (JsMap Str))
    (pre0 p1 p2 p3 post : List Line) (la lb lc cl : Line)
    (aK bK cK bV : Str)
    (hsplit : splitLines content =
      pre0 ++ (la :: (p1 ++ (lb :: (p2 ++ (lc :: (p3 ++ (cl :: post))))))))
    (ha : mergeStringMatch la = some aK) (hb : mergeStringMatch lb = some bK)
    (hc : mergeStringMatch lc = some cK)
    (hab : aK ≠ bK) (hcb : cK ≠ bK)
    (hbs : includes lb closeStringTok = true)
    (har : includes la closeResourcesTok = false)
    (hbr : includes lb closeResourcesTok = false)
    (hcr : includes lc closeResourcesTok = false)
    (hclr : includes cl closeResourcesTok = true)
    (hclk : keepLine [bK] cl = true)
    (hmid : ∀ l ∈ pre0 ++ (p1 ++ (p2 ++ p3)),
      keepLine [bK] l = true ∧ includes l closeResourcesTok = false)
    (hpost : ∀ l ∈ post, keepLine [bK] l = true ∧ includes l closeResourcesTok = false) :
    mergeIntoExistingXml content [(bK, bV)] none rawLines =
      joinLines ((pre0 ++ (la :: (p1 ++ (p2 ++ (lc :: p3))))) ++
        (renderEntryLine (detectIndentation content) rawLines bK bV :: (cl :: post))) := by
  have hcontains : ∀ k : Str, ([bK].contains k = true) → k = bK := by
    intro k hk
    simpa using hk
  have hkeepla : keepLine [bK] la = true := by
    simp only [keepLine, ha]
    simp [hab]
  have hkeeplb : keepLine [bK] lb = false := by
    simp only [keepLine, hb]
    simp
  have hkeeplc : keepLine [bK] lc = true := by
    simp only [keepLine, hc]
    simp [hcb]
  have hkeepImp : ∀ l : Line, keepLine [bK] l = true → ∀ k, mergeStringMatch l = some k →
      [bK].contains k = true →
      includes l closeStringTok = true ∧ includes l closeResourcesTok = false := by
    intro l hkeep k hm hcont
    exfalso
    have hkbk := hcontains k hcont
    simp only [keepLine, hm] at hkeep
    rw [hkbk] at hkeep
    simp at hkeep
  have hall : ∀ l ∈ splitLines content, ∀ k, mergeStringMatch l = some k →
      [bK].contains k = true →
      includes l closeStringTok = true ∧ includes l closeResourcesTok = false := by
    intro l hl
    rw [hsplit] at hl
    simp only [List.mem_append, List.mem_cons] at hl
    rcases hl with h0 | rfl | h1 | rfl | h2 | rfl | h3 | rfl | h4
    · exact hkeepImp l (hmid l (by simp [h0])).1
    · intro k hm hcont
      rw [ha] at hm
      have hk : aK = k := by simpa using hm
      exact absurd (hk.trans (hcontains k hcont)) hab
    · exact hkeepImp l (hmid l (by simp [h1])).1
    · intro k hm hcont
      exact ⟨hbs, hbr⟩
    · exact hkeepImp l (hmid l (by simp [h2])).1
    · intro k hm hcont
      rw [hc] at hm
      have hk : cK = k := by simpa using hm
      exact absurd (hk.trans (hcontains k hcont)) hcb
    · exact hkeepImp l (hmid l (by simp [h3])).1
    · intro k hm hcont
      exact hkeepImp l hclk k hm hcont
    · exact hkeepImp l (hpost l h4).1
  have hproc : processLines [bK] false (splitLines content) =
      (splitLines content).filter (keepLine [bK]) := by
    have := processLines_append_filter [bK] (splitLines content) [] hall
    simpa [processLines_nil] using this
  have hmid0 : ∀ l ∈ pre0, keepLine [bK] l = true := fun l hl => (hmid l (by simp [hl])).1
  have hmid1 : ∀ l ∈ p1, keepLine [bK] l = true := fun l hl => (hmid l (by simp [hl])).1
  have hmid2 : ∀ l ∈ p2, keepLine [bK] l = true := fun l hl => (hmid l (by simp [hl])).1
  have hmid3 : ∀ l ∈ p3, keepLine [bK] l = true := fun l hl => (hmid l (by simp [hl])).1
  have hpostk : ∀ l ∈ post, keepLine [bK] l = true := fun l hl => (hpost l hl).1
  have hfilter : (splitLines content).filter (keepLine [bK]) =
      (pre0 ++ (la :: (p1 ++ (p2 ++ (lc :: p3))))) ++ (cl :: post) := by
    rw [hsplit]
    simp only [List.filter_append, List.filter_cons, hkeepla, hkeeplb, hkeeplc, hclk,
      List.filter_eq_self.mpr hmid0, List.filter_eq_self.mpr hmid1,
      List.filter_eq_self.mpr hmid2, List.filter_eq_self.mpr hmid3,
      List.filter_eq_self.mpr hpostk]
    simp
  have hlast : lastIdxOf? (fun l => includes l closeResourcesTok)
      ((pre0 ++ (la :: (p1 ++ (p2 ++ (lc :: p3))))) ++ (cl :: post)) =
      some (pre0 ++ (la :: (p1 ++ (p2 ++ (lc :: p3))))).length :=
    lastIdxOf?_append_last _ _ post cl hclr (fun x hx => (hpost x hx).2)
  simp only [mergeIntoExistingXml, List.map_cons, List.map_nil, List.foldl_cons,
    List.foldl_nil, hproc, hfilter, hlast]
  have hset : jsSet ([] : JsMap Str) bK bV = [(bK, bV)] := rfl
  rw [hset]
  have hnew : newEntryLines (detectIndentation content) [(bK, bV)] none rawLines =
      [renderEntryLine (detectIndentation content) rawLines bK bV] := by
    simp [newEntryLines, jsTruthy]
  rw [hnew]
  rw [List.take_left, List.drop_left]
  simp

/-- C2 witness at a concrete three-entry file. -/
theorem mergeIntoExistingXml_relocates_witness :
    mergeIntoExistingXml
      ("<resources>\n    <string name=\"a\">1</string>\n    <string name=\"b\">2</string>\n    <string name=\"c\">3</string>\n</resources>".toList)
      [("b".toList, "9".toList)] none none =
    "<resources>\n    <string name=\"a\">1</string>\n    <string name=\"c\">3</string>\n    <string name=\"b\">9</string>\n</resources>".toList := by
  have h := mergeIntoExistingXml_relocates
    ("<resources>\n    <string name=\"a\">1</string>\n    <string name=\"b\">2</string>\n    <string name=\"c\">3</string>\n</resources>".toList)
    none
    ["<resources>".toList] [] [] [] []
    ("    <string name=\"a\">1</string>".toList)
    ("    <string name=\"b\">2</string>".toList)
    ("    <string name=\"c\">3</string>".toList)
    ("</resources>".toList)
    ("a".toList) ("b".toList) ("c".toList) ("9".toList)
    (by decide) (by decide) (by decide) (by decide) (by decide) (by decide)
    (by decide) (by decide) (by decide) (by decide) (by decide)
    (by decide) (by decide) (by decide)
  rw [h]
  decide

/-! ## C10 : an unclosed multi-line block swallows the rest of the file -/

/-- C10: when the Reconstructor meets a line opening a `<string>` element
whose key is in the replace-set and no later line contains `</string>`,
every remaining line — including any `</resources>` that follows — is
skipped, so the output is the kept prefix, the appended entries, and a
synthesized `</resources>` line. -/
theorem mergeIntoExistingXml_unclosed_truncates
    (content : Str) (src : JsMap Str) (comment : Option Str) (rawLines : Option (JsMap Str))
    (pre rest : List Line) (lo : Line) (k0 : Str)
    (hsplit : splitLines content = pre ++ (lo :: rest))
    (hpre : ∀ l ∈ pre, (∀ k, mergeStringMatch l = some k →
        (src.map Prod.fst).contains k = true → includes l closeStringTok = true) ∧
      includes l closeResourcesTok = false)
    (ho : mergeStringMatch lo = some k0)
    (hk0 : (src.map Prod.fst).contains k0 = true)
    (hos : includes lo closeStringTok = false)
    (hor : includes lo closeResourcesTok = false)
    (hrest : ∀ l ∈ rest, includes l closeStringTok = false) :
    mergeIntoExistingXml content src comment rawLines =
      joinLines (pre.filter (keepLine (src.map Prod.fst)) ++
        newEntryLines (detectIndentation content)
          (src.foldl (fun m p => jsSet m p.1 p.2) []) comment rawLines ++
        [closeResourcesTok]) := by
  have hproc : processLines (src.map Prod.fst) false (splitLines content) =
      pre.filter (keepLine (src.map Prod.fst)) := by
    rw [hsplit,
      processLines_append_filter (src.map Prod.fst) pre (lo :: rest)
        (fun l hl k hm hc => ⟨(hpre l hl).1 k hm hc, (hpre l hl).2⟩)]
    have hk0' : ∃ x, (k0, x) ∈ src := by
      have hmem : k0 ∈ src.map Prod.fst := by simpa using hk0
      obtain ⟨p, hp, hfst⟩ := List.mem_map.mp hmem
      refine ⟨p.2, ?_⟩
      rw [← hfst]
      simpa using hp
    have hlo : processLines (src.map Prod.fst) false (lo :: rest) = [] := by
      simp [processLines, hor, ho, hk0, hos, hk0',
        processLines_skip_all _ rest hrest]
    rw [hlo, List.append_nil]
  have hnores : lastIdxOf? (fun l => includes l closeResourcesTok)
      (pre.filter (keepLine (src.map Prod.fst))) = none :=
    lastIdxOf?_none _ _ fun a ha => (hpre a (List.mem_of_mem_filter ha)).2
  simp only [mergeIntoExistingXml, hproc, hnores]
  rw [List.take_left, List.drop_left]

/-- C10 witness: an unclosed replaced block swallows the trailing entry and
the closing tag. -/
theorem mergeIntoExistingXml_unclosed_truncates_witness :
    mergeIntoExistingXml
      ("<resources>\n    <string name=\"a\">unterminated\n    <string name=\"c\">3\n</resources>".toList)
      [("a".toList, "9".toList)] none none =
    "<resources>\n    <string name=\"a\">9</string>\n</resources>".toList := by
  have h := mergeIntoExistingXml_unclosed_truncates
    ("<resources>\n    <string name=\"a\">unterminated\n    <string name=\"c\">3\n</resources>".toList)
    [("a".toList, "9".toList)] none none
    ["<resources>".toList]
    ["    <string name=\"c\">3".toList, "</resources>".toList]
    ("    <string name=\"a\">unterminated".toList)
    ("a".toList)
    (by decide) (by decide) (by decide) (by decide) (by decide) (by decide) (by decide)
  rw [h]
  decide

/-! ## C5 : does the diff-line concatenation reconstruct the merged file? -/

/-- The spec's reconstruction reading of a diff: concatenate, in array
order, the contents of every line that is not `update-old`. -/
def reconstructFromDiffLines (dls : List XmlDiffLine) : Str :=
  joinLines ((dls.filter fun d => d.type ≠ DiffLineType.updateOld).map fun d => d.content)

/-- C5 counterexample: a source entry whose value already matches the
target is classified `unchanged` — the preview keeps its line in place —
but `mergeIntoExistingXml` still relocates that line to the end, so the
concatenated diff and the merged file disagree (even after line-ending
normalization). -/
theorem reconstructFromDiffLines_ne_merge :
    normalizeLineEndings (reconstructFromDiffLines
      (previewOne
        { locale := "default".toList, folderName := "values".toList,
          entries := [("a".toList, "1".toList)] }
        (some
          { locale := "default".toList, folderName := "values".toList,
            entries := [("a".toList, "1".toList), ("b".toList, "2".toList)],
            rawContent := some
              ("<resources>\n    <string name=\"a\">1</string>\n    <string name=\"b\">2</string>\n</resources>".toList) })
        true).diffLines) ≠
    normalizeLineEndings (mergeIntoExistingXml
      ("<resources>\n    <string name=\"a\">1</string>\n    <string name=\"b\">2</string>\n</resources>".toList)
      [("a".toList, "1".toList)] none none) := by
  decide

/-- Whether the preview tags a line as `update-old`. -/
def tagRemoved (keysToReplace : List Str) (l : Line) : Bool :=
  match previewStringMatch l with
  | some key => keysToReplace.contains key
  | none => false

theorem content_diffTagLine (kR : List Str) (p : Nat × Line) :
    (diffTagLine kR p).content = p.2 := by
  unfold diffTagLine
  cases h : previewStringMatch p.2
  · rfl
  · dsimp only
    split <;> rfl

/-- Repeated `splice` at one fixed index inserts the entries in reverse
order at that index. -/
theorem foldl_spliceAt {α β : Type} (i : Nat) (mk : β → α) (front back : List α)
    (hlen : front.length = i) :
    ∀ (entries : List β) (mid : List α),
      entries.foldl (fun dls e => spliceAt i (mk e) dls) (front ++ (mid ++ back)) =
        front ++ ((entries.reverse.map mk ++ mid) ++ back) := by
  intro entries
  induction entries with
  | nil => intro mid; simp
  | cons e es ih =>
    intro mid
    have hsplice : spliceAt i (mk e) (front ++ (mid ++ back)) =
        front ++ ((mk e :: mid) ++ back) := by
      unfold spliceAt
      rw [List.take_left' hlen, List.drop_left' hlen]
      simp
    simp only [List.foldl_cons, hsplice]
    have := ih (mk e :: mid)
    simp only [List.cons_append] at this ⊢
    rw [this]
    simp [List.append_assoc]

/-- Filtering the `update-old` lines out of a tagged segment and taking the
contents is the Reconstructor's keep-filter, when tagging and removal agree
line by line. -/
theorem filtered_tag_contents (kR names : List Str) :
    ∀ (pl : List (Nat × Line)),
      (∀ q ∈ pl, tagRemoved kR q.2 = !keepLine names q.2) →
      ((pl.map (diffTagLine kR)).filter (fun d => d.type ≠ DiffLineType.updateOld)).map
          (fun d => d.content) =
        (pl.map Prod.snd).filter (keepLine names) := by
  intro pl
  induction pl with
  | nil => intro _; rfl
  | cons q qs ih =>
    intro h
    have hq := h q (by simp)
    have hqs := ih fun q' hq' => h q' (by simp [hq'])
    simp only [ne_eq, decide_not] at hqs
    simp only [List.map_cons, List.filter_cons]
    cases hm : previewStringMatch q.2 with
    | none =>
      have hkeep : keepLine names q.2 = true := by
        simp only [tagRemoved, hm] at hq
        cases hk : keepLine names q.2
        · rw [hk] at hq; simp at hq
        · rfl
      simp [diffTagLine, hm, hkeep, hqs]
    | some key =>
      cases hkr : kR.contains key with
      | true =>
        have hkr2 : key ∈ kR := by simpa using hkr
        have hkeep : keepLine names q.2 = false := by
          simp only [tagRemoved, hm, hkr] at hq
          cases hk : keepLine names q.2
          · rfl
          · rw [hk] at hq; simp at hq
        simp [diffTagLine, hm, hkr, hkr2, hkeep, hqs]
      | false =>
        have hkr2 : key ∉ kR := by simpa using hkr
        have hkeep : keepLine names q.2 = true := by
          simp only [tagRemoved, hm, hkr] at hq
          cases hk : keepLine names q.2
          · rw [hk] at hq; simp at hq
          · rfl
        simp [diffTagLine, hm, hkr, hkr2, hkeep, hqs]

/-- The first `</resources>` diff line of the tagged base sits at the index
of the closing line. -/
theorem findIdx?_tagged (kR : List Str) (x : Nat × Line)
    (hx : includes x.2 closeResourcesTok = true) :
    ∀ (pl : List (Nat × Line)) (rest : List XmlDiffLine) (i : Nat),
      (∀ q ∈ pl, includes q.2 closeResourcesTok = false) →
      List.findIdx? (fun dl => includes dl.content closeResourcesTok)
        (pl.map (diffTagLine kR) ++ diffTagLine kR x :: rest) i = some (i + pl.length) := by
  intro pl
  induction pl with
  | nil =>
    intro rest i _
    simp [List.findIdx?_cons, content_diffTagLine, hx]
  | cons q qs ih =>
    intro rest i h
    have hq := h q (by simp)
    simp only [List.map_cons, List.cons_append, List.findIdx?_cons, content_diffTagLine, hq]
    simp only [Bool.false_eq_true, if_false]
    rw [ih rest (i + 1) fun q' hq' => h q' (by simp [hq'])]
    simp only [List.length_cons]
    congr 1
    omega

/-- The concatenation of the non-`update-old` preview lines, for a target
decomposed around its closing line. -/
theorem reconstruct_previewDiffLines
    (s : LocaleResources) (c : Str) (st : ClassifyState) (names : List Str)
    (pre post : List Line) (cl : Line)
    (hsplit : splitLines c = pre ++ (cl :: post))
    (hclr : includes cl closeResourcesTok = true)
    (hclm : previewStringMatch cl = none)
    (hcond : ∀ l, l ∈ pre ∨ l ∈ post →
        tagRemoved st.keysToReplace l = !keepLine names l ∧
        includes l closeResourcesTok = false) :
    reconstructFromDiffLines (previewDiffLines s c st) =
      joinLines (pre.filter (keepLine names) ++
        (((st.updatedItems.map (fun it => (it.key, it.newValue)) ++
           st.addedItems.map (fun it => (it.key, it.newValue))).reverse.map
            (fun e => previewEntryLine s.rawLines e.1 e.2)) ++
        cl :: post.filter (keepLine names))) := by
  have hpreE : ∀ q ∈ pre.enum, includes q.2 closeResourcesTok = false := by
    intro q hq
    have : q.2 ∈ pre := by
      have := List.mem_map_of_mem Prod.snd hq
      rwa [List.enum_map_snd] at this
    exact (hcond q.2 (Or.inl this)).2
  have hpostE : ∀ n, ∀ q ∈ List.enumFrom n post, includes q.2 closeResourcesTok = false := by
    intro n q hq
    have : q.2 ∈ post := by
      have := List.mem_map_of_mem Prod.snd hq
      rwa [List.enumFrom_map_snd] at this
    exact (hcond q.2 (Or.inr this)).2
  have hpreT : ∀ q ∈ pre.enum, tagRemoved st.keysToReplace q.2 = !keepLine names q.2 := by
    intro q hq
    have : q.2 ∈ pre := by
      have := List.mem_map_of_mem Prod.snd hq
      rwa [List.enum_map_snd] at this
    exact (hcond q.2 (Or.inl this)).1
  have hpostT : ∀ n, ∀ q ∈ List.enumFrom n post,
      tagRemoved st.keysToReplace q.2 = !keepLine names q.2 := by
    intro n q hq
    have : q.2 ∈ post := by
      have := List.mem_map_of_mem Prod.snd hq
      rwa [List.enumFrom_map_snd] at this
    exact (hcond q.2 (Or.inr this)).1
  have hbase : (splitLines c).enum.map (diffTagLine st.keysToReplace) =
      pre.enum.map (diffTagLine st.keysToReplace) ++
        diffTagLine st.keysToReplace (pre.length, cl) ::
          (List.enumFrom (pre.length + 1) post).map (diffTagLine st.keysToReplace) := by
    rw [hsplit, List.enum_append, List.enumFrom_cons, List.map_append, List.map_cons]
  have hclTag : diffTagLine st.keysToReplace (pre.length, cl) =
      { lineNumber := pre.length + 1, content := cl, type := .unchanged } := by
    simp [diffTagLine, hclm]
  -- the filtered-and-mapped pieces
  have hfiltPre := filtered_tag_contents st.keysToReplace names pre.enum hpreT
  have hfiltPost := filtered_tag_contents st.keysToReplace names
    (List.enumFrom (pre.length + 1) post) (hpostT (pre.length + 1))
  rw [List.enum_map_snd] at hfiltPre
  rw [List.enumFrom_map_snd] at hfiltPost
  have htype : (diffTagLine st.keysToReplace (pre.length, cl)).type =
      DiffLineType.unchanged := by
    simp [diffTagLine, hclm]
  have hcont : (diffTagLine st.keysToReplace (pre.length, cl)).content = cl :=
    content_diffTagLine _ _
  have hfiltCons : List.filter (fun d => decide (d.type ≠ DiffLineType.updateOld))
      (diffTagLine st.keysToReplace (pre.length, cl) ::
        (List.enumFrom (pre.length + 1) post).map (diffTagLine st.keysToReplace)) =
      diffTagLine st.keysToReplace (pre.length, cl) ::
        List.filter (fun d => decide (d.type ≠ DiffLineType.updateOld))
          ((List.enumFrom (pre.length + 1) post).map (diffTagLine st.keysToReplace)) := by
    rw [List.filter_cons]
    simp [htype]
  simp only [previewDiffLines]
  rw [hbase]
  by_cases hempty :
      (st.updatedItems.map (fun it => (it.key, it.newValue)) ++
        st.addedItems.map (fun it => (it.key, it.newValue))).isEmpty = true
  · have hnil : st.updatedItems.map (fun it => (it.key, it.newValue)) ++
        st.addedItems.map (fun it => (it.key, it.newValue)) = [] := by
      simpa [List.isEmpty_iff] using hempty
    rw [if_pos hempty]
    unfold reconstructFromDiffLines
    rw [List.filter_append, List.map_append, hfiltPre, hfiltCons,
      List.map_cons, hcont, hfiltPost, hnil]
    simp
  · rw [if_neg hempty]
    have hfind := findIdx?_tagged st.keysToReplace (pre.length, cl) hclr pre.enum
      ((List.enumFrom (pre.length + 1) post).map (diffTagLine st.keysToReplace)) 0 hpreE
    have hfind2 : List.findIdx? (fun dl => includes dl.content closeResourcesTok)
        (pre.enum.map (diffTagLine st.keysToReplace) ++
          diffTagLine st.keysToReplace (pre.length, cl) ::
            (List.enumFrom (pre.length + 1) post).map (diffTagLine st.keysToReplace)) =
        some pre.length := by
      simpa using hfind
    rw [hfind2]
    have hlen : (pre.enum.map (diffTagLine st.keysToReplace)).length = pre.length := by
      simp
    have hfold := foldl_spliceAt pre.length (diffNewLine s.rawLines st.updatedItems)
      (pre.enum.map (diffTagLine st.keysToReplace))
      (diffTagLine st.keysToReplace (pre.length, cl) ::
        (List.enumFrom (pre.length + 1) post).map (diffTagLine st.keysToReplace))
      hlen
      (st.updatedItems.map (fun it => (it.key, it.newValue)) ++
        st.addedItems.map (fun it => (it.key, it.newValue))) []
    simp only [List.nil_append, List.append_nil] at hfold
    rw [hfold]
    unfold reconstructFromDiffLines
    rw [List.filter_append, List.filter_append, List.map_append, List.map_append, hfiltPre]
    have hmid : ((st.updatedItems.map (fun it => (it.key, it.newValue)) ++
        st.addedItems.map (fun it => (it.key, it.newValue))).reverse.map
          (diffNewLine s.rawLines st.updatedItems)).filter
            (fun d => decide (d.type ≠ DiffLineType.updateOld)) =
        (st.updatedItems.map (fun it => (it.key, it.newValue)) ++
          st.addedItems.map (fun it => (it.key, it.newValue))).reverse.map
            (diffNewLine s.rawLines st.updatedItems) := by
      refine List.filter_eq_self.mpr ?_
      intro d hd
      obtain ⟨e, he, rfl⟩ := List.mem_map.mp hd
      cases h : st.updatedItems.any (fun u => u.key = e.1) <;>
        simp [diffNewLine, h]
    rw [hmid, hfiltCons, List.map_cons, hcont, hfiltPost, List.map_map]
    rfl

/-- C5 (amended): the byte-faithful-reconstruction invariant holds only
under the conditions the code actually guarantees: `replaceExisting` is
true and every source entry genuinely differs from (or is absent in) the
target, so the merge relocates exactly the `update-old` lines; the
appended order matches (the preview inserts the new entries in reverse,
the merge in source order); rendering agrees (four-space detected indent,
raw line present or escaping the identity); no comment; and every affected
target line is a single-line element on which both patterns agree. -/
theorem reconstructFromDiffLines_merge_amended
    (s t : LocaleResources) (c : Str) (pre post : List Line) (cl : Line)
    (hraw : t.rawContent = some c)
    (hsplit : splitLines c = pre ++ (cl :: post))
    (hclr : includes cl closeResourcesTok = true)
    (hclm : previewStringMatch cl = none)
    (hnodup : (s.entries.map Prod.fst).Nodup)
    (hchanged : ∀ p ∈ s.entries, ∀ old, jsGet t.entries p.1 = some old → old ≠ p.2)
    (hlines : ∀ l, l ∈ pre ∨ l ∈ post →
        includes l closeResourcesTok = false ∧
        previewStringMatch l = mergeStringMatch l ∧
        (∀ k, mergeStringMatch l = some k →
          (s.entries.map Prod.fst).contains k = true →
          includes l closeStringTok = true ∧ jsHas t.entries k = true))
    (hindent : detectIndentation c = "    ".toList)
    (hrender : ∀ p ∈ s.entries,
        previewEntryLine s.rawLines p.1 p.2 =
          renderEntryLine ("    ".toList) s.rawLines p.1 p.2)
    (horder : ((classifyFold s.entries t.entries true).updatedItems.map
          (fun it => (it.key, it.newValue)) ++
        (classifyFold s.entries t.entries true).addedItems.map
          (fun it => (it.key, it.newValue))).reverse = s.entries) :
    normalizeLineEndings (reconstructFromDiffLines
        (previewOne s (some t) true).diffLines) =
      normalizeLineEndings (mergeIntoExistingXml c s.entries none s.rawLines) := by
  have hcne : c.isEmpty = false := by
    cases c with
    | nil =>
      exfalso
      have hnil : splitLines ([] : Str) = [[]] := rfl
      rw [hnil] at hsplit
      cases pre with
      | nil =>
        simp only [List.nil_append] at hsplit
        have hcl : cl = [] := by
          have := congrArg (fun l => List.headD l ([' '] : Line)) hsplit
          simpa using this.symm
        rw [hcl] at hclr
        exact absurd hclr (by decide)
      | cons p ps =>
        have := congrArg List.length hsplit
        simp at this
    | cons c0 cs => rfl
  have htruthy : jsTruthy t.rawContent = true := by
    rw [hraw]
    simp [jsTruthy, hcne]
  have hkr : (classifyFold s.entries t.entries true).keysToReplace =
      (s.entries.filter (updFilter t.entries true)).map Prod.fst := by
    unfold classifyFold
    rw [classifyFold_spec]
    simp
  have hcond : ∀ l, l ∈ pre ∨ l ∈ post →
      tagRemoved (classifyFold s.entries t.entries true).keysToReplace l =
        !keepLine (s.entries.map Prod.fst) l ∧
      includes l closeResourcesTok = false := by
    intro l hl
    obtain ⟨hres, hpm, himp⟩ := hlines l hl
    refine ⟨?_, hres⟩
    unfold tagRemoved keepLine
    rw [hpm]
    cases hm : mergeStringMatch l with
    | none => rfl
    | some k =>
      rw [Bool.not_not]
      cases hn : (s.entries.map Prod.fst).contains k with
      | true =>
        have hkmem : k ∈ s.entries.map Prod.fst := by simpa using hn
        obtain ⟨p, hp, hfst⟩ := List.mem_map.mp hkmem
        have hhas := (himp k hm hn).2
        simp only [jsHas, Option.isSome_iff_exists] at hhas
        obtain ⟨old, hold⟩ := hhas
        have hne := hchanged p hp old (by rw [hfst]; exact hold)
        have hupd : updFilter t.entries true p = true := by
          have hget : jsGet t.entries p.1 = some old := by rw [hfst]; exact hold
          simp [updFilter, hget, hne]
        have hkmem2 : k ∈ (classifyFold s.entries t.entries true).keysToReplace := by
          rw [hkr]
          exact List.mem_map.mpr ⟨p, List.mem_filter.mpr ⟨hp, hupd⟩, hfst⟩
        simp [hkmem2]
      | false =>
        have hknot : k ∉ (classifyFold s.entries t.entries true).keysToReplace := by
          rw [hkr]
          intro hmem
          obtain ⟨p, hpf, hfst⟩ := List.mem_map.mp hmem
          have hp := (List.mem_filter.mp hpf).1
          have : k ∈ s.entries.map Prod.fst := List.mem_map.mpr ⟨p, hp, hfst⟩
          have := (by simpa using this : (s.entries.map Prod.fst).contains k = true)
          rw [hn] at this
          exact absurd this (by simp)
        simp [hknot]
  have hpreview := reconstruct_previewDiffLines s c
    (classifyFold s.entries t.entries true) (s.entries.map Prod.fst)
    pre post cl hsplit hclr hclm hcond
  have hallpre : ∀ l ∈ pre, ∀ k, mergeStringMatch l = some k →
      (s.entries.map Prod.fst).contains k = true →
      includes l closeStringTok = true ∧ includes l closeResourcesTok = false :=
    fun l hl k hm hc =>
      ⟨((hlines l (Or.inl hl)).2.2 k hm hc).1, (hlines l (Or.inl hl)).1⟩
  have hallpost : ∀ l ∈ post, ∀ k, mergeStringMatch l = some k →
      (s.entries.map Prod.fst).contains k = true →
      includes l closeStringTok = true ∧ includes l closeResourcesTok = false :=
    fun l hl k hm hc =>
      ⟨((hlines l (Or.inr hl)).2.2 k hm hc).1, (hlines l (Or.inr hl)).1⟩
  have hproc : processLines (s.entries.map Prod.fst) false (splitLines c) =
      pre.filter (keepLine (s.entries.map Prod.fst)) ++
        (cl :: post.filter (keepLine (s.entries.map Prod.fst))) := by
    rw [hsplit, processLines_append_filter _ pre _ hallpre]
    congr 1
    have hstep : processLines (s.entries.map Prod.fst) false (cl :: post) =
        cl :: processLines (s.entries.map Prod.fst) false post := by
      simp [processLines, hclr]
    rw [hstep]
    congr 1
    have := processLines_append_filter (s.entries.map Prod.fst) post [] hallpost
    simpa [processLines_nil] using this
  have hfoldsrc : s.entries.foldl (fun m p => jsSet m p.1 p.2) [] = s.entries := by
    have := foldl_jsSet_of_nodup s.entries [] (by simpa using hnodup)
    simpa using this
  have hlast : lastIdxOf? (fun l => includes l closeResourcesTok)
      (pre.filter (keepLine (s.entries.map Prod.fst)) ++
        (cl :: post.filter (keepLine (s.entries.map Prod.fst)))) =
      some (pre.filter (keepLine (s.entries.map Prod.fst))).length :=
    lastIdxOf?_append_last _ _ _ cl hclr
      (fun b hb => (hlines b (Or.inr (List.mem_of_mem_filter hb))).1)
  have hnew : newEntryLines ("    ".toList) s.entries none s.rawLines =
      s.entries.map (fun p => renderEntryLine ("    ".toList) s.rawLines p.1 p.2) := by
    simp [newEntryLines, jsTruthy]
  have hdiff : (previewOne s (some t) true).diffLines = previewDiffLines s c
      (classifyFold s.entries t.entries true) := by
    simp only [previewOne, htruthy, if_true]
    rw [hraw]
    rfl
  have hmapr : s.entries.map (fun e => previewEntryLine s.rawLines e.1 e.2) =
      s.entries.map (fun p => renderEntryLine ("    ".toList) s.rawLines p.1 p.2) :=
    List.map_congr_left hrender
  rw [hdiff, hpreview, horder, hmapr]
  simp only [mergeIntoExistingXml, hproc, hfoldsrc, hlast, hindent, hnew]
  rw [List.take_left, List.drop_left]
  simp [List.append_assoc]

/-- C5 amended-claim witness: a single updated entry with a matching
rendered line satisfies every hypothesis, and both reconstructions agree. -/
theorem reconstructFromDiffLines_merge_amended_witness :
    normalizeLineEndings (reconstructFromDiffLines
        (previewOne
          { locale := "default".toList, folderName := "values".toList,
            entries := [("a".toList, "2".toList)] }
          (some
            { locale := "default".toList, folderName := "values".toList,
              entries := [("a".toList, "1".toList)],
              rawContent := some
                ("<resources>\n    <string name=\"a\">1</string>\n</resources>".toList) })
          true).diffLines) =
      normalizeLineEndings (mergeIntoExistingXml
        ("<resources>\n    <string name=\"a\">1</string>\n</resources>".toList)
        [("a".toList, "2".toList)] none none) := by
  have h := reconstructFromDiffLines_merge_amended
    { locale := "default".toList, folderName := "values".toList,
      entries := [("a".toList, "2".toList)] }
    { locale := "default".toList, folderName := "values".toList,
      entries := [("a".toList, "1".toList)],
      rawContent := some
        ("<resources>\n    <string name=\"a\">1</string>\n</resources>".toList) }
    ("<resources>\n    <string name=\"a\">1</string>\n</resources>".toList)
    ["<resources>".toList, "    <string name=\"a\">1</string>".toList] []
    ("</resources>".toList)
    rfl (by decide) (by decide) (by decide) (by decide)
    (by
      intro p hp old hold
      have hp2 : p = ("a".toList, "2".toList) := by simpa using hp
      subst hp2
      have hold2 : jsGet [("a".toList, "1".toList)] ("a".toList) = some old := hold
      have h1 : jsGet [("a".toList, "1".toList)] ("a".toList) =
          some ("1".toList) := by decide
      have h2 : ("1".toList : Str) = old := by
        have := h1.symm.trans hold2
        simpa using this
      rw [← h2]
      decide)
    (by
      intro l hl
      have hl2 : l = "<resources>".toList ∨
          l = "    <string name=\"a\">1</string>".toList := by
        rcases hl with hl | hl
        · simpa using hl
        · simp at hl
      rcases hl2 with rfl | rfl
      · refine ⟨by decide, by decide, ?_⟩
        intro k hm
        rw [show mergeStringMatch ("<resources>".toList) = none from by decide] at hm
        simp at hm
      · refine ⟨by decide, by decide, ?_⟩
        intro k hm hc
        rw [show mergeStringMatch ("    <string name=\"a\">1</string>".toList) =
            some ("a".toList) from by decide] at hm
        have hk : ("a".toList : Str) = k := by simpa using hm
        rw [← hk]
        exact ⟨by decide, by decide⟩)
    (by decide) (by decide) (by decide)
  exact h

/-! ## C6 : idempotence of the merge -/

/-- The detected indentation never contains a newline (it is a whitespace
run of a single line, or the four-space default). -/
theorem detectIndentation_no_newline (content : Str) :
    '\n' ∉ detectIndentation content := by
  simp only [detectIndentation]
  split
  · split
    · split
      · next ws hfs =>
        obtain ⟨l, hl, hf⟩ := List.exists_of_findSome?_eq_some hfs
        have hlmem : l ∈ splitLines content :=
          List.take_subset _ _ (List.mem_reverse.mp hl)
        have hnl := splitLines_no_newline content l hlmem
        unfold leadingIndentOf at hf
        by_cases hws : (l.takeWhile isJsWs).isEmpty = true
        · simp [hws] at hf
        · simp only [hws, Bool.false_eq_true, if_false] at hf
          cases hdrop : l.drop (l.takeWhile isJsWs).length with
          | nil => rw [hdrop] at hf; simp at hf
          | cons c0 cs =>
            rw [hdrop] at hf
            by_cases hc0 : c0 = '<'
            · subst hc0
              simp only [Option.some.injEq] at hf
              rw [← hf]
              intro hmem
              exact hnl ((List.takeWhile_sublist isJsWs).mem hmem)
            · simp [hc0] at hf
      · decide
    · decide
  · decide

/-- Folding the flat line parser over rendered entry lines is folding
`jsSet` over the entries, when each rendered line parses back to its
entry. -/
theorem foldl_parse_rendered (render : Str × Str → Line) :
    ∀ (src : JsMap Str) (m : JsMap Str),
      (∀ p ∈ src, parseLineFlat (render p) = some p) →
      (src.map render).foldl
        (fun m l =>
          match parseLineFlat l with
          | some p => jsSet m p.1 p.2
          | none => m) m =
      src.foldl (fun m p => jsSet m p.1 p.2) m := by
  intro src
  induction src with
  | nil => intro m _; rfl
  | cons p rest ih =>
    intro m h
    simp only [List.map_cons, List.foldl_cons, h p (by simp)]
    exact ih _ fun q hq => h q (by simp [hq])

/-- C6 counterexample: merging `{k ↦ "a &amp; b"}` writes the value
verbatim (the escaping heuristic treats it as pre-escaped), the re-parse
decodes it to `a & b`, and the second run classifies the entry as an
update, not unchanged. -/
theorem merge_not_idempotent :
    ¬((previewOne
        { locale := "default".toList, folderName := "values".toList,
          entries := [("k".toList, "a &amp; b".toList)] }
        (some
          { locale := "default".toList, folderName := "values".toList,
            entries := parseEntriesFlat (mergeIntoExistingXml
              ("<resources>\n</resources>".toList)
              [("k".toList, "a &amp; b".toList)] none none),
            rawContent := some (mergeIntoExistingXml
              ("<resources>\n</resources>".toList)
              [("k".toList, "a &amp; b".toList)] none none) })
        true).addCount = 0 ∧
      (previewOne
        { locale := "default".toList, folderName := "values".toList,
          entries := [("k".toList, "a &amp; b".toList)] }
        (some
          { locale := "default".toList, folderName := "values".toList,
            entries := parseEntriesFlat (mergeIntoExistingXml
              ("<resources>\n</resources>".toList)
              [("k".toList, "a &amp; b".toList)] none none),
            rawContent := some (mergeIntoExistingXml
              ("<resources>\n</resources>".toList)
              [("k".toList, "a &amp; b".toList)] none none) })
        true).overwriteCount = 0) := by
  decide

/-- C6 (amended): rerunning the diff of the same non-empty source entries
against the re-parsed output of the merge yields zero `add` and zero
`update` classifications, provided the serialized entry lines re-parse to
exactly their key/value pairs (the escape/decode round-trip, which the
`&amp;`-heuristic can break), keys are distinct and newline-free, every
source-key `<string>` line of the target is single-line, and the target
ends in its only `</resources>` line. -/
theorem merge_idempotent_amended
    (s target2 : LocaleResources) (c : Str) (b : Bool)
    (body : List Line) (cl : Line)
    (hsplit : splitLines c = body ++ [cl])
    (hclr : includes cl closeResourcesTok = true)
    (hclp : parseLineFlat cl = none)
    (hbody : ∀ l ∈ body, ∀ k, mergeStringMatch l = some k →
        (s.entries.map Prod.fst).contains k = true →
        includes l closeStringTok = true ∧ includes l closeResourcesTok = false)
    (hnodup : (s.entries.map Prod.fst).Nodup)
    (hkeys : ∀ p ∈ s.entries,
        parseLineFlat (renderEntryLine (detectIndentation c) none p.1 p.2) = some p)
    (hnl : ∀ p ∈ s.entries,
        '\n' ∉ renderEntryLine (detectIndentation c) none p.1 p.2)
    (htgt : target2.entries =
        parseEntriesFlat (mergeIntoExistingXml c s.entries none none)) :
    (previewOne s (some target2) b).addCount = 0 ∧
    (previewOne s (some target2) b).overwriteCount = 0 ∧
    (previewOne s (some target2) b).addedItems = [] ∧
    (previewOne s (some target2) b).updatedItems = [] := by
  -- the merged file's line structure
  have hproc : processLines (s.entries.map Prod.fst) false (splitLines c) =
      body.filter (keepLine (s.entries.map Prod.fst)) ++ [cl] := by
    rw [hsplit, processLines_append_filter _ body _ hbody]
    congr 1
    simp [processLines, hclr, processLines_nil]
  have hfoldsrc : s.entries.foldl (fun m p => jsSet m p.1 p.2) [] = s.entries := by
    have := foldl_jsSet_of_nodup s.entries [] (by simpa using hnodup)
    simpa using this
  have hlast : lastIdxOf? (fun l => includes l closeResourcesTok)
      (body.filter (keepLine (s.entries.map Prod.fst)) ++ [cl]) =
      some (body.filter (keepLine (s.entries.map Prod.fst))).length :=
    lastIdxOf?_append_last _ _ [] cl hclr (by simp)
  have hnewlines : newEntryLines (detectIndentation c) s.entries none none =
      s.entries.map (fun p => renderEntryLine (detectIndentation c) none p.1 p.2) := by
    simp [newEntryLines, jsTruthy]
  have hmerged : mergeIntoExistingXml c s.entries none none =
      joinLines (body.filter (keepLine (s.entries.map Prod.fst)) ++
        (s.entries.map (fun p => renderEntryLine (detectIndentation c) none p.1 p.2) ++
          [cl])) := by
    simp only [mergeIntoExistingXml, hproc, hfoldsrc, hlast, hnewlines]
    rw [List.take_left, List.drop_left]
    simp [List.append_assoc]
  -- split of the merged text recovers its lines
  have hsplitm : splitLines (mergeIntoExistingXml c s.entries none none) =
      body.filter (keepLine (s.entries.map Prod.fst)) ++
        (s.entries.map (fun p => renderEntryLine (detectIndentation c) none p.1 p.2) ++
          [cl]) := by
    rw [hmerged]
    refine splitLines_joinLines _ (by simp) ?_
    intro l hl
    rcases List.mem_append.mp hl with hl | hl
    · exact splitLines_no_newline c l (by rw [hsplit]; exact List.mem_append_left _ (List.mem_of_mem_filter hl))
    · rcases List.mem_append.mp hl with hl | hl
      · obtain ⟨p, hp, rfl⟩ := List.mem_map.mp hl
        exact hnl p hp
      · have : l = cl := by simpa using hl
        subst this
        exact splitLines_no_newline c l (by rw [hsplit]; simp)
  -- every source entry is present with its own value after the re-parse
  have hget : ∀ p ∈ s.entries,
      jsGet (parseEntriesFlat (mergeIntoExistingXml c s.entries none none)) p.1 =
        some p.2 := by
    intro p hp
    unfold parseEntriesFlat
    rw [hsplitm, List.foldl_append, List.foldl_append]
    rw [foldl_parse_rendered _ s.entries _ hkeys]
    simp only [List.foldl_cons, List.foldl_nil, hclp]
    exact jsGet_foldl_jsSet_of_mem s.entries Prod.snd hnodup p.1 p.2 (by simpa using hp) _
  -- the second-run classification
  have hpres : ∀ p ∈ s.entries, jsGet target2.entries p.1 = some p.2 := by
    intro p hp
    rw [htgt]
    exact hget p hp
  have hst : (classifyFold s.entries target2.entries b).addedItems = [] ∧
      (classifyFold s.entries target2.entries b).updatedItems = [] := by
    unfold classifyFold
    rw [classifyFold_spec]
    constructor
    · simp only [List.nil_append]
      have hfil : s.entries.filter (fun q => !jsHas target2.entries q.1) = [] := by
        rw [List.filter_eq_nil_iff]
        intro p hp
        simp [jsHas, hpres p hp]
      rw [hfil, List.map_nil]
    · simp only [List.nil_append]
      have hfil : s.entries.filter (updFilter target2.entries b) = [] := by
        rw [List.filter_eq_nil_iff]
        intro p hp
        simp [updFilter, hpres p hp]
      rw [hfil, List.map_nil]
  cases htr : jsTruthy target2.rawContent with
  | true =>
    simp only [previewOne, htr, if_true]
    exact ⟨by simp [hst.1], by simp [hst.2], hst.1, hst.2⟩
  | false =>
    simp only [previewOne, htr, Bool.false_eq_true, if_false]
    exact ⟨by simp [hst.1], by simp [hst.2], hst.1, hst.2⟩

/-- C6 amended-claim witness: an update plus an add, rerun against the
re-parsed merge output, classify as zero adds and zero updates. -/
theorem merge_idempotent_amended_witness :
    (previewOne
      { locale := "default".toList, folderName := "values".toList,
        entries := [("a".toList, "2".toList), ("b".toList, "3".toList)] }
      (some
        { locale := "default".toList, folderName := "values".toList,
          entries := parseEntriesFlat (mergeIntoExistingXml
            ("<resources>\n    <string name=\"a\">1</string>\n</resources>".toList)
            [("a".toList, "2".toList), ("b".toList, "3".toList)] none none) })
      true).addCount = 0 ∧
    (previewOne
      { locale := "default".toList, folderName := "values".toList,
        entries := [("a".toList, "2".toList), ("b".toList, "3".toList)] }
      (some
        { locale := "default".toList, folderName := "values".toList,
          entries := parseEntriesFlat (mergeIntoExistingXml
            ("<resources>\n    <string name=\"a\">1</string>\n</resources>".toList)
            [("a".toList, "2".toList), ("b".toList, "3".toList)] none none) })
      true).overwriteCount = 0 := by
  have h := merge_idempotent_amended
    { locale := "default".toList, folderName := "values".toList,
      entries := [("a".toList, "2".toList), ("b".toList, "3".toList)] }
    { locale := "default".toList, folderName := "values".toList,
      entries := parseEntriesFlat (mergeIntoExistingXml
        ("<resources>\n    <string name=\"a\">1</string>\n</resources>".toList)
        [("a".toList, "2".toList), ("b".toList, "3".toList)] none none) }
    ("<resources>\n    <string name=\"a\">1</string>\n</resources>".toList)
    true
    ["<resources>".toList, "    <string name=\"a\">1</string>".toList]
    ("</resources>".toList)
    (by decide) (by decide) (by decide)
    (by
      intro l hl k hm hc
      have hl2 : l = "<resources>".toList ∨
          l = "    <string name=\"a\">1</string>".toList := by simpa using hl
      rcases hl2 with rfl | rfl
      · rw [show mergeStringMatch ("<resources>".toList) = none from by decide] at hm
        simp at hm
      · exact ⟨by decide, by decide⟩)
    (by decide) (by decide)
    (by
      intro p hp
      have hp2 : p = ("a".toList, "2".toList) ∨ p = ("b".toList, "3".toList) := by
        simpa using hp
      rcases hp2 with rfl | rfl <;> decide)
    rfl
  exact ⟨h.1, h.2.1⟩

end AssetScaler
